import Mathlib

/-!
Verification of the tmdsimpy nonlinear continuation / solver / harmonic
transform core against its natural-language specification.

The Python sources are shallowly embedded:
  * rational / control-flow code is embedded over `ℚ` (floating point is
    idealized to exact arithmetic),
  * the Fourier transform utilities are embedded over `ℝ` / `ℂ`,
  * vectors and matrices are total functions `ℕ → ℚ` / `ℕ → ℕ → ℝ` with
    explicit dimension parameters, matching numpy array indexing,
  * Python `assert` statements become `Except String` results,
  * mutable object attributes become explicit state threading.
-/

namespace Tmdsimpy

/-! ## Solver convergence check (src/tmdsimpy/jax/solvers.py, `_check_convg`)

The six recognized tolerance keys of `NonlinearSolverOMP`
(`stopping_tol` / `accepting_tol` entries). -/

inductive TolKey where
  | xtol
  | rtol
  | etol
  | xtolRel
  | rtolRel
  | etolRel
deriving DecidableEq, Repr

/-- The six current error quantities passed to `_check_convg`:
`r_curr = |R|`, `e_curr = R·deltaX_prev`, `u_curr = |deltaX|`, and the
relative quantities `r_rel = |R|/|R0|`, `e_rel = e/e0`,
`u_rel = |deltaX|/|deltaX0|`. -/
structure ConvErrs where
  r_curr : ℚ
  e_curr : ℚ
  u_curr : ℚ
  r_rel : ℚ
  e_rel : ℚ
  u_rel : ℚ
deriving DecidableEq, Repr

/-- The `error_dict` built inside `_check_convg` (solvers.py lines 478-485),
transcribed exactly: note that the source maps the key `'xtol_rel'` to
`e_rel` and the key `'etol_rel'` to `u_rel`. -/
def errorDict (e : ConvErrs) : TolKey → ℚ
  | .xtol => e.u_curr
  | .rtol => e.r_curr
  | .etol => e.e_curr
  | .xtolRel => e.e_rel
  | .rtolRel => e.r_rel
  | .etolRel => e.u_rel

/-- `_check_convg(check_list, tol_dict, ...)`: folds
`converged = converged or (abs(error_dict[key]) < tol_dict[key])`
over the keys of `check_list`. -/
def check_convg (checkList : List TolKey) (tolDict : TolKey → ℚ)
    (e : ConvErrs) : Bool :=
  checkList.foldl (fun converged key =>
    converged || (|errorDict e key| < tolDict key)) false

/-! ## Continuation configuration (src/tmdsimpy/continuation.py) -/

/-- `Continuation.__init__` lines 208-213: after merging the user config,
the configured `FracLam` value is inserted at index 0 of `FracLamList`
whenever the list is empty or does not already start with `FracLam`.
Since Python's `list.insert` mutates the list object in place and the merged
config holds a reference to the caller's list, the returned list is also the
caller-visible list object after construction. -/
def initFracLamList (fracLam : ℚ) (fracLamList : List ℚ) : List ℚ :=
  if fracLamList.length = 0 ∨ ¬(fracLamList.head? = some fracLam) then
    fracLam :: fracLamList
  else
    fracLamList

/-- `Continuation.continuation` line 795: with `DynamicCtoP` enabled, the
conditioning vector used at continuation step `step ≥ 1` is
`CtoP = np.maximum(np.abs(XlamP_full[step-1]), self.CtoP0)` elementwise,
where `ctop0` is the copy of the conditioning vector saved at the start of
the run (line 784) and `hist s` is the accepted point `XlamP_full[s]`. -/
def dynamicCtoP (ctop0 : ℕ → ℚ) (hist : ℕ → ℕ → ℚ) (step : ℕ) : ℕ → ℚ :=
  fun i => max |hist (step - 1) i| (ctop0 i)

/-! ## Continuation step retry logic (continuation.py lines 797-839)

Within one continuation step, for one `FracLam` value: a first corrector
solve is attempted at the current `ds`; while the solve fails and
`ds > dsmin`, `ds` is replaced by `max(ds/2, dsmin)` and the solve is
re-attempted.  `succ ds` abstracts whether `solver.nsolve` converges for the
attempt at step size `ds`.  `fuel` bounds the number of halvings (the Python
loop terminates because repeated halving reaches `dsmin`); all statements
proved below hold whenever `fuel` is large enough for that to happen.
Returns `(converged, final ds, list of attempted ds values)`. -/
def retryLoop (succ : ℚ → Bool) (dsmin : ℚ) : ℕ → ℚ → Bool × ℚ × List ℚ
  | 0, ds => (succ ds, ds, [ds])
  | fuel + 1, ds =>
    if succ ds then
      (true, ds, [ds])
    else if dsmin < ds then
      let out := retryLoop succ dsmin fuel (max (ds / 2) dsmin)
      (out.1, out.2.1, ds :: out.2.2)
    else
      (false, ds, [ds])

/-- The `FracLam` retry ladder (continuation.py lines 797-839): the
`for fracLam_ind in range(len(FracLamList))` loop.  Each index runs
`retryLoop`; on success the ladder stops; on failure the next index is
attempted starting from the `ds` value the previous index ended with
(the source never restores `ds`).  Returns
`(converged, final ds, trace of (fracLam index, attempted ds))`. -/
def ladderLoop (succ : ℕ → ℚ → Bool) (dsmin : ℚ) (fuel : ℕ) :
    List ℕ → ℚ → Bool × ℚ × List (ℕ × ℚ)
  | [], ds => (false, ds, [])
  | ind :: rest, ds =>
    let out := retryLoop (succ ind) dsmin fuel ds
    let trace := out.2.2.map (fun d => (ind, d))
    if out.1 then
      (true, out.2.1, trace)
    else
      let tail := ladderLoop succ dsmin fuel rest out.2.1
      (tail.1, tail.2.1, trace ++ tail.2.2)

/-! ## `NonlinearSolverOMP.nsolve` iteration loop (solvers.py lines 279-441)

The numerical content of one iteration (the residual evaluation, the
factorization and the Newton/BFGS step) is abstracted into an oracle trace:
`IterEval` records, for each loop iteration that may execute, whether the
evaluated residual `R`, Jacobian `dRdX` and step `deltaX` contain a NaN,
and the six convergence quantities computed from them.  The control flow of
the loop — NaN checks in source order, NR/BFGS alternation via
`bfgs_ind = (bfgs_ind + 1) % reform_freq`, convergence exit, and the
post-loop `accepting_tol` check guarded by `no_nan_vals` — is transcribed
exactly. -/

structure IterEval where
  nanR : Bool
  nanJ : Bool
  nanDX : Bool
  errs : ConvErrs

/-- The solve record `sol` returned from `nsolve`, plus the `no_nan_vals`
flag (negated: `nanStop` is true when the loop broke on a NaN). -/
structure NsolveOut where
  success : Bool
  nanStop : Bool
  nfev : ℕ
  njev : ℕ
deriving DecidableEq, Repr

/-- The `for i in range(max_iter)` loop of `nsolve`:
on a Newton iteration (`bfgs_ind == 0`) the function and Jacobian are
evaluated (`nfev`, `njev` increment) and NaNs in `R`, then `dRdX`, then
`deltaX` break the loop; on a BFGS iteration only `R` is evaluated and NaNs
in `R`, then `deltaX` break the loop.  Otherwise convergence is checked
with `_check_convg(stopping_tol, ...)` at the proposed point; on
convergence the loop exits with success.  Returns the solve record and the
convergence quantities of the last executed iteration (used by the
post-loop accepting check). -/
def nsolveIter (reformFreq : ℕ) (stopping : List TolKey)
    (tols : TolKey → ℚ) (bfgsInd nfev njev : ℕ) (lastErrs : ConvErrs) :
    List IterEval → NsolveOut × ConvErrs
  | [] =>
    ({ success := false, nanStop := false, nfev := nfev, njev := njev },
      lastErrs)
  | it :: rest =>
    if bfgsInd = 0 then
      if it.nanR then
        ({ success := false, nanStop := true,
           nfev := nfev + 1, njev := njev + 1 }, lastErrs)
      else if it.nanJ then
        ({ success := false, nanStop := true,
           nfev := nfev + 1, njev := njev + 1 }, lastErrs)
      else if it.nanDX then
        ({ success := false, nanStop := true,
           nfev := nfev + 1, njev := njev + 1 }, lastErrs)
      else if check_convg stopping tols it.errs then
        ({ success := true, nanStop := false,
           nfev := nfev + 1, njev := njev + 1 }, it.errs)
      else
        nsolveIter reformFreq stopping tols ((bfgsInd + 1) % reformFreq)
          (nfev + 1) (njev + 1) it.errs rest
    else
      if it.nanR then
        ({ success := false, nanStop := true,
           nfev := nfev + 1, njev := njev }, lastErrs)
      else if it.nanDX then
        ({ success := false, nanStop := true,
           nfev := nfev + 1, njev := njev }, lastErrs)
      else if check_convg stopping tols it.errs then
        ({ success := true, nanStop := false,
           nfev := nfev + 1, njev := njev }, it.errs)
      else
        nsolveIter reformFreq stopping tols ((bfgsInd + 1) % reformFreq)
          (nfev + 1) njev it.errs rest

/-- `nsolve` (solvers.py lines 285-441): runs the iteration loop from a
Newton iteration (`bfgs_ind = 0`), then applies the post-loop fallback
`if no_nan_vals and not sol['success']:` re-checking convergence against
`accepting_tol` with the quantities of the final executed iteration. -/
def nsolve_model (reformFreq : ℕ) (stopping accepting : List TolKey)
    (tols : TolKey → ℚ) (initErrs : ConvErrs) (trace : List IterEval) :
    NsolveOut :=
  let out := nsolveIter reformFreq stopping tols 0 0 0 initErrs trace
  if out.1.nanStop = false ∧ out.1.success = false then
    { out.1 with success := check_convg accepting tols out.2 }
  else
    out.1

/-! ## Corrector residual and corrector dispatch (continuation.py 349-537) -/

/-- Python's `str.upper()` for the ASCII configuration strings used by the
source (`'Ortho'`, `'Pseudo'`, ...): upper-cases each character. -/
def pyUpper (s : String) : String := String.mk (s.data.map Char.toUpper)

/-- Squared Euclidean norm of the first `n` entries of a vector. -/
def normSq (n : ℕ) (v : ℕ → ℚ) : ℚ := ∑ i in Finset.range n, v i ^ 2

/-- `Continuation.pseudo_arc_res` (continuation.py lines 349-403): the
pseudo-arclength corrector residual and its gradient.  Vectors have `n`
unknown entries at indices `0..n-1` and the `lam` entry at index `n`
(Python index `-1`). -/
def pseudo_arc_res (n : ℕ) (XlamC XlamC0 : ℕ → ℚ) (ds b c : ℚ) :
    ℚ × (ℕ → ℚ) :=
  let dlamC := XlamC n - XlamC0 n
  let dXC := fun i => XlamC i - XlamC0 i
  let dstep_sq := c * normSq n dXC + b * dlamC ^ 2
  let Rarc := (dstep_sq - ds ^ 2) / ds ^ 2
  let dRarcdXlamC := fun i =>
    (if i < n then 2 * c * dXC i else 2 * b * dlamC) / ds ^ 2
  (Rarc, dRarcdXlamC)

/-- `Continuation.orthogonal_arc_res` (continuation.py lines 405-457): the
orthogonal corrector residual and its gradient. -/
def orthogonal_arc_res (n : ℕ) (XlamC XlamC0 dirC : ℕ → ℚ)
    (ds b c : ℚ) : ℚ × (ℕ → ℚ) :=
  let dXlamC := fun i => XlamC i - (XlamC0 i + dirC i * ds)
  let Rarc := (c * (∑ i in Finset.range n, dXlamC i * dirC i)
    + b * dXlamC n * dirC n) / ds
  let dRarcdXlamC := fun i => (if i < n then c * dirC i else b * dirC n) / ds
  (Rarc, dRarcdXlamC)

/-- `Continuation.correct_res` (continuation.py lines 459-537, with
`calc_grad=True`): evaluates the caller's residual function at the physical
point `XlamP = XlamC * CtoP` (the residual function is the oracle triple
`funR`/`funDRdX`/`funDRdlam`), then dispatches on the configured corrector
string: `'PSEUDO'` and `'ORTHO'` (after upper-casing) select the
corresponding arclength residual, any other value hits
`assert False, 'Invalid corrector type: ...'`, modelled as an error result.
Returns the augmented residual and gradient. -/
def correct_res (corrector : String) (b RPtoC : ℚ) (n : ℕ)
    (CtoP : ℕ → ℚ) (funR : (ℕ → ℚ) → (ℕ → ℚ))
    (funDRdX : (ℕ → ℚ) → (ℕ → ℕ → ℚ)) (funDRdlam : (ℕ → ℚ) → (ℕ → ℚ))
    (XlamC XlamC0 : ℕ → ℚ) (ds : ℚ) (dirC : Option (ℕ → ℚ)) :
    Except String ((ℕ → ℚ) × (ℕ → ℕ → ℚ)) :=
  let XlamP := fun i => XlamC i * CtoP i
  let R := funR XlamP
  let dRdXlamC := fun i j =>
    if j < n then funDRdX XlamP i j * CtoP j else funDRdlam XlamP i * CtoP n
  let c := (1 - b) / normSq n XlamC0
  let build := fun (arc : ℚ × (ℕ → ℚ)) =>
    (fun i => if i < n then RPtoC * R i else arc.1,
     fun i j => if i < n then RPtoC * dRdXlamC i j else arc.2 j)
  if pyUpper corrector = "PSEUDO" then
    .ok (build (pseudo_arc_res n XlamC XlamC0 ds b c))
  else if pyUpper corrector = "ORTHO" then
    match dirC with
    | none => .error "In proper call, need dirC for ortho corrector."
    | some dc => .ok (build (orthogonal_arc_res n XlamC XlamC0 dc ds b c))
  else
    .error ("Invalid corrector type: " ++ pyUpper corrector)

/-! ## Head of `Continuation.continuation` (continuation.py lines 710-830)

Event trace of one continuation run up to the first corrector residual
evaluation.  The source first solves the fixed-`lam0` problem with
`solver.nsolve` (lines 749-752) and aborts if that fails (line 757); it
then enters the step loop, calls `self.predict` (line 804, which evaluates
the residual function but never touches the corrector setting), and starts
the corrector solve (line 811), whose first action is to evaluate
`correct_fun`, i.e. `correct_res` — the first point where an invalid
`corrector` string raises. -/

inductive CEvent where
  | initialSolve (success : Bool)
  | predictorEval
  | configError (msg : String)
  | correctorSolve
deriving DecidableEq, Repr

/-- Events of a continuation run through the first corrector residual
evaluation.  `initSuccess` abstracts whether the initial fixed-`lam0`
nonlinear solve converges; the remaining arguments are those `correct_res`
is first called with. -/
def continuationFirstEvents (corrector : String) (b RPtoC : ℚ) (n : ℕ)
    (CtoP : ℕ → ℚ) (funR : (ℕ → ℚ) → (ℕ → ℚ))
    (funDRdX : (ℕ → ℚ) → (ℕ → ℕ → ℚ)) (funDRdlam : (ℕ → ℚ) → (ℕ → ℚ))
    (XlamC XlamC0 : ℕ → ℚ) (ds : ℚ) (dirC : ℕ → ℚ)
    (initSuccess : Bool) : List CEvent :=
  CEvent.initialSolve initSuccess ::
    (if initSuccess then
      CEvent.predictorEval ::
        (match correct_res corrector b RPtoC n CtoP funR funDRdX funDRdlam
            XlamC XlamC0 ds (some dirC) with
        | .error msg => [CEvent.configError msg]
        | .ok _ => [CEvent.correctorSolve])
    else [])

/-! ## Harmonic utilities (src/tmdsimpy/harmonic_utils.py) -/

/-- The count `2*(h != 0).sum() + (h == 0).sum()` of harmonic components:
two (cosine and sine) per nonzero harmonic, one per zero harmonic. -/
def NhcCount (h : List ℕ) : ℕ :=
  2 * (h.filter (fun x => x ≠ 0)).length + (h.filter (fun x => x = 0)).length

/-- `Nhc(h)` (harmonic_utils.py lines 4-24): asserts that `h` has no
repeated entries (`len(np.unique(h)) == len(h)`), then returns the count. -/
def Nhc (h : List ℕ) : Except String ℕ :=
  if h.Nodup then .ok (NhcCount h)
  else .error "Repeated Harmonics in h are not allowed."

/-- Assignment of an `nd × nd` block with top-left corner `(r0, c0)` into a
matrix, as in the numpy slice assignments of `harmonic_stiffness`. -/
def setBlock (E : ℕ → ℕ → ℚ) (nd r0 c0 : ℕ) (B : ℕ → ℕ → ℚ) :
    ℕ → ℕ → ℚ :=
  fun i j =>
    if r0 ≤ i ∧ i < r0 + nd ∧ c0 ≤ j ∧ j < c0 + nd then
      B (i - r0) (j - c0)
    else E i j

/-- The `for hind in range(zi, h.shape[0])` loop of `harmonic_stiffness`
(harmonic_utils.py lines 90-109), transcribed with the harmonic-component
index `p = 2*hind - zi` carried explicitly (it advances by 2 per
iteration).  For each remaining harmonic `k` the loop writes, in source
order: `TR = (k*w)*C` at block `(p, p+1)`, `BL = (-k*w)*C` at block
`(p+1, p)`, and — unless `only_C` (the source's `include_KM` is false) —
`TL = BR = K + (-(k*w)^2)*M` at blocks `(p, p)` and `(p+1, p+1)`. -/
def hsStep (nd : ℕ) (M C K : ℕ → ℕ → ℚ) (w : ℚ) (onlyC : Bool)
    (p k : ℕ) (E : ℕ → ℕ → ℚ) : ℕ → ℕ → ℚ :=
  let kw : ℚ := (k : ℚ) * w
  let E1 := setBlock E nd (nd * p) (nd * (p + 1)) (fun i j => kw * C i j)
  let E2 := setBlock E1 nd (nd * (p + 1)) (nd * p)
    (fun i j => (-kw) * C i j)
  if onlyC then E2
  else
    setBlock
      (setBlock E2 nd (nd * p) (nd * p)
        (fun i j => K i j + (-(kw ^ 2)) * M i j))
      nd (nd * (p + 1)) (nd * (p + 1))
      (fun i j => K i j + (-(kw ^ 2)) * M i j)

def hsLoop (nd : ℕ) (M C K : ℕ → ℕ → ℚ) (w : ℚ) (onlyC : Bool) :
    ℕ → List ℕ → (ℕ → ℕ → ℚ) → (ℕ → ℕ → ℚ)
  | _, [], E => E
  | p, k :: rest, E =>
    hsLoop nd M C K w onlyC (p + 2) rest (hsStep nd M C K w onlyC p k E)

/-- `zi = 1*(h[0] == 0)` (harmonic_utils.py line 82): the starting index
for the first non-constant harmonic. -/
def ziOf (h : List ℕ) : ℕ := if h.head? = some 0 then 1 else 0

/-- The matrix `E` built by `harmonic_stiffness` (harmonic_utils.py lines
72-109): start from zeros, write `K` at block `(0, 0)` when the zeroth
harmonic is first and `K`/`M` are included, then run the harmonic loop from
`hind = zi` (component index `p = zi`). -/
def harmonic_stiffness_mat (nd : ℕ) (M C K : ℕ → ℕ → ℚ) (w : ℚ)
    (h : List ℕ) (onlyC : Bool) : ℕ → ℕ → ℚ :=
  let E0 : ℕ → ℕ → ℚ := fun _ _ => 0
  let E1 := if ziOf h = 1 ∧ ¬onlyC then setBlock E0 nd 0 0 K else E0
  hsLoop nd M C K w onlyC (ziOf h) (h.drop (ziOf h)) E1

/-- The frequency derivative `dEdw` built by `harmonic_stiffness` under
`calc_grad=True` (harmonic_utils.py lines 111-131): `TRdw = k*C`,
`BLdw = -k*C`, `TLdw = BRdw = (-2*w*k^2)*M`; the zero-harmonic block is
never written. -/
def hsLoopDw (nd : ℕ) (M C : ℕ → ℕ → ℚ) (w : ℚ) (onlyC : Bool) :
    ℕ → List ℕ → (ℕ → ℕ → ℚ) → (ℕ → ℕ → ℚ)
  | _, [], E => E
  | p, k :: rest, E =>
    let E1 := setBlock E nd (nd * p) (nd * (p + 1))
      (fun i j => (k : ℚ) * C i j)
    let E2 := setBlock E1 nd (nd * (p + 1)) (nd * p)
      (fun i j => (-(k : ℚ)) * C i j)
    let E3 :=
      if onlyC then E2
      else
        setBlock
          (setBlock E2 nd (nd * p) (nd * p)
            (fun i j => (-2 * w * (k : ℚ) ^ 2) * M i j))
          nd (nd * (p + 1)) (nd * (p + 1))
          (fun i j => (-2 * w * (k : ℚ) ^ 2) * M i j)
    hsLoopDw nd M C w onlyC (p + 2) rest E3

/-- `harmonic_stiffness(M, C, K, w, h, calc_grad=True, only_C)`
(harmonic_utils.py lines 26-136): the call to `Nhc(h)` raises on repeated
harmonics; otherwise both `E` and `dEdw` are assembled. -/
def harmonic_stiffness (nd : ℕ) (M C K : ℕ → ℕ → ℚ) (w : ℚ) (h : List ℕ)
    (onlyC : Bool) : Except String ((ℕ → ℕ → ℚ) × (ℕ → ℕ → ℚ)) :=
  match Nhc h with
  | .error e => .error e
  | .ok _ =>
    .ok (harmonic_stiffness_mat nd M C K w h onlyC,
      hsLoopDw nd M C w onlyC (ziOf h) (h.drop (ziOf h)) (fun _ _ => 0))

/-! ## Time series and Fourier coefficients (harmonic_utils.py 138-263)

These are embedded over `ℝ`/`ℂ` with the discrete Fourier transforms
written as finite sums (exact arithmetic; numpy's float `fft`/`ifft` are
idealized). -/

/-- `np.max(h)` for the harmonic list. -/
def maxH (h : List ℕ) : ℕ := h.foldr max 0

/-- Position of the first occurrence of `m` in the list (used to invert
the scatter assignments building `X0full`). -/
def findPos : List ℕ → ℕ → Option ℕ
  | [], _ => none
  | a :: t, m => if a = m then some 0 else (findPos t m).map (· + 1)

/-- The dense array `X0full` built by the scatter assignments of
`time_series_deriv` (harmonic_utils.py lines 169-176), including the
zero padding of line 207: row `0` holds the zeroth-harmonic row of `X0`
(when `h[0] == 0`), rows `2m-1` / `2m` hold the cosine / sine rows of
harmonic `m` — which are rows `2i-zi` / `2i-zi+1` of `X0` when `m` sits at
position `i ≥ zi` of `h` — and all other rows are zero. -/
def x0full (h : List ℕ) (X0 : ℕ → ℕ → ℝ) (j d : ℕ) : ℝ :=
  let zi := ziOf h
  if j = 0 then
    if h.head? = some 0 then X0 0 d else 0
  else
    match findPos h ((j + 1) / 2) with
    | some i =>
      if zi ≤ i then
        if j % 2 = 1 then X0 (2 * i - zi) d else X0 (2 * i - zi + 1) d
      else 0
    | none => 0

/-- The rotation matrix `D1` of `time_series_deriv` (lines 181-193):
`D1[2k-1, 2k] = k` and `D1[2k, 2k-1] = -k` for every nonzero harmonic `k`
of `h`. -/
def d1mat (h : List ℕ) (a b : ℕ) : ℝ :=
  if a % 2 = 1 ∧ b = a + 1 ∧ ((a + 1) / 2) ∈ h then (((a + 1) / 2 : ℕ) : ℝ)
  else if b % 2 = 1 ∧ a = b + 1 ∧ ((b + 1) / 2) ∈ h then
    -(((b + 1) / 2 : ℕ) : ℝ)
  else 0

/-- Square-matrix product over indices `< n`. -/
def matMulN (n : ℕ) (A B : ℕ → ℕ → ℝ) : ℕ → ℕ → ℝ :=
  fun i j => ∑ t in Finset.range n, A i t * B t j

/-- `np.linalg.matrix_power` over indices `< n`. -/
def matPowN (n : ℕ) (A : ℕ → ℕ → ℝ) : ℕ → (ℕ → ℕ → ℝ)
  | 0 => fun i j => if i = j then 1 else 0
  | t + 1 => matMulN n (matPowN n A t) A

/-- The (possibly derivative-rotated) full coefficient array:
`X0full = D1^order @ X0full` when `order > 0` (lines 181-200). -/
def x0fullD (h : List ℕ) (X0 : ℕ → ℕ → ℝ) (order : ℕ) : ℕ → ℕ → ℝ :=
  if 0 < order then
    matMulN (2 * maxH h + 1) (matPowN (2 * maxH h + 1) (d1mat h) order)
      (x0full h X0)
  else
    x0full h X0

/-- The complex Fourier coefficient array `Xf` assembled by
`time_series_deriv` (lines 211-216), from the full real coefficient array
`F` and `Nht = Nt/2 - 1` (so the transform length is `N = 2*Nht + 2`):
row `0` is `2*F[0]`, rows `1..Nht` are `F[2k-1] - i*F[2k]`, row `Nht+1` is
zero, and rows `Nht+2..N-1` are `F[2(N-k)-1] + i*F[2(N-k)]`; everything is
scaled by `N/2`. -/
noncomputable def tsdXf (F : ℕ → ℕ → ℝ) (Nht : ℕ) (k d : ℕ) : ℂ :=
  let N := 2 * Nht + 2
  ((N : ℂ) / 2) *
    (if k = 0 then 2 * (F 0 d : ℂ)
     else if k ≤ Nht then (F (2 * k - 1) d : ℂ) - Complex.I * (F (2 * k) d : ℂ)
     else if k = Nht + 1 then 0
     else (F (2 * (N - k) - 1) d : ℂ) + Complex.I * (F (2 * (N - k)) d : ℂ))

/-- numpy's inverse DFT of length `N`:
`x[j] = (1/N) * sum_k X[k] * exp(2*pi*i*j*k/N)`. -/
noncomputable def ifftN (N : ℕ) (X : ℕ → ℂ) (j : ℕ) : ℂ :=
  (1 / (N : ℂ)) * ∑ k in Finset.range N,
    X k * Complex.exp (2 * (Real.pi : ℂ) * Complex.I * j * k / N)

/-- numpy's forward DFT of length `N`:
`X[k] = sum_j x[j] * exp(-2*pi*i*j*k/N)`. -/
noncomputable def fftN (N : ℕ) (x : ℕ → ℂ) (k : ℕ) : ℂ :=
  ∑ j in Finset.range N,
    x j * Complex.exp (-(2 * (Real.pi : ℂ) * Complex.I) * j * k / N)

/-- The time-sample values computed by `time_series_deriv` (lines
206-222): `x_t = np.real(np.fft.ifft(Xf))` with `Nht = int(Nt/2 - 1)` and
transform length `Nt = 2*Nht + 2`. -/
noncomputable def tsdVal (Nt : ℕ) (h : List ℕ) (X0 : ℕ → ℕ → ℝ) (order : ℕ)
    (j d : ℕ) : ℝ :=
  let Nht := Nt / 2 - 1
  (ifftN (2 * Nht + 2) (fun k => tsdXf (x0fullD h X0 order) Nht k d) j).re

/-- `time_series_deriv(Nt, h, X0, order)` (harmonic_utils.py lines
138-222): asserts the zeroth harmonic is first (line 163), then asserts
`Nt > 2*Nh + 1` (line 179, the aliasing check), then computes the time
series. -/
noncomputable def time_series_deriv (Nt : ℕ) (h : List ℕ) (X0 : ℕ → ℕ → ℝ)
    (order : ℕ) : Except String (ℕ → ℕ → ℝ) :=
  if ¬((h.filter (fun x => x = 0)).length = 0 ∨ h.head? = some 0) then
    .error "Zeroth harmonic must be first"
  else if ¬(2 * maxH h + 1 < Nt) then
    .error "More times are required to avoid truncating harmonics."
  else
    .ok (fun j d => tsdVal Nt h X0 order j d)

/-- `get_fourier_coeff(h, x_t)` (harmonic_utils.py lines 224-263), with
the number `Nt` of rows of `x_t` passed explicitly: asserts the zeroth
harmonic is first, then extracts `v[0] = Re(xf[0])/Nt` (when the zeroth
harmonic is present) and, for the `i`-th remaining harmonic `hi`,
`v[2i+zi] = Re(xf[hi])/(Nt/2)` and `v[2i+1+zi] = -Im(xf[hi])/(Nt/2)`. -/
noncomputable def get_fourier_coeff (h : List ℕ) (Nt : ℕ) (x_t : ℕ → ℕ → ℝ) :
    Except String (ℕ → ℕ → ℝ) :=
  if ¬((h.filter (fun x => x = 0)).length = 0 ∨ h.head? = some 0) then
    .error "Zeroth harmonic must be first"
  else
    .ok (fun r d =>
      let zi := ziOf h
      let xf := fun k => fftN Nt (fun j => (x_t j d : ℂ)) k
      if r = 0 ∧ zi = 1 then (xf 0).re / (Nt : ℝ)
      else
        match (h.drop zi).get? ((r - zi) / 2) with
        | some hi =>
          if (r - zi) % 2 = 0 then (xf hi).re / ((Nt : ℝ) / 2)
          else -(xf hi).im / ((Nt : ℝ) / 2)
        | none => 0)

/-- A concrete solver error state: the relative step norm is small
(`u_rel = 1/10`), the relative energy quantity is large (`e_rel = 10`). -/
def smallStepErrs : ConvErrs :=
  { r_curr := 1, e_curr := 1, u_curr := 1,
    r_rel := 1, e_rel := 10, u_rel := 1 / 10 }

/-! ## Force elements (jenkins_element.py, rough_contact.py)

The force-element objects are embedded as structures holding all instance
attributes (including the hysteretic history variables); methods become
functions returning both their Python return value and the post-call
object state.  The `aft` method bodies contain no attribute assignments,
so their embedded forms return the input state unchanged. -/

/-- Modelled from the spec: the JAX variants of the harmonic transform
functions (`tmdsimpy/jax/harmonic_utils.py`, imported by both force
elements but not present under `src/`) compute the same transform as the
numpy implementations (spec §4.1 describes one pair of pure transform
functions).  This is the value-level extraction of
`get_fourier_coeff` (harmonic_utils.py lines 248-263). -/
noncomputable def jaxGetFourierCoeff (h : List ℕ) (Nt : ℕ)
    (x_t : ℕ → ℕ → ℝ) (r d : ℕ) : ℝ :=
  let zi := ziOf h
  let xf := fun k => fftN Nt (fun j => (x_t j d : ℂ)) k
  if r = 0 ∧ zi = 1 then (xf 0).re / (Nt : ℝ)
  else
    match (h.drop zi).get? ((r - zi) / 2) with
    | some hi =>
      if (r - zi) % 2 = 0 then (xf hi).re / ((Nt : ℝ) / 2)
      else -(xf hi).im / ((Nt : ℝ) / 2)
    | none => 0

/-- `JenkinsForce` (jenkins_element.py lines 66-75): transformation
matrices, stiffness, slip force, the prestress bookkeeping values, and the
slider initialization option (`u0 = None` means initialize from the zeroth
harmonic). -/
structure JenkinsForce where
  N : ℕ
  Q : ℕ → ℕ → ℝ
  T : ℕ → ℕ → ℝ
  kt : ℝ
  Fs : ℝ
  prestress_Fs : ℝ
  real_Fs : ℝ
  u0 : Option ℝ

/-- `_local_jenkins_loop_body` (jenkins_element.py lines 218-243): one
slider update `ft[ind] = max(min(kt*(u[ind]-u[ind-1]) + ft[ind-1], Fs),
-Fs)`, with the `ind-1` index wrapping to the last entry at `ind = 0` as
in the source (which relies on that wrap to seed the loop). -/
noncomputable def jenkinsLoopBody (Nt : ℕ) (kt Fs : ℝ) (unlt : ℕ → ℝ)
    (ind : ℕ) (ft : ℕ → ℝ) : ℕ → ℝ :=
  fun t =>
    if t = ind then
      max (min (kt * (unlt ind - unlt ((ind + Nt - 1) % Nt))
        + ft ((ind + Nt - 1) % Nt)) Fs) (-Fs)
    else ft t

/-- One `jax.lax.fori_loop(0, Nt, loop_fun, ft)` sweep over the cycle. -/
noncomputable def jenkinsSweep (Nt : ℕ) (kt Fs : ℝ) (unlt : ℕ → ℝ)
    (ft : ℕ → ℝ) : ℕ → ℝ :=
  (List.range Nt).foldl (fun f i => jenkinsLoopBody Nt kt Fs unlt i f) ft

/-- `_local_aft_jenkins` (jenkins_element.py lines 247-349) for the single
local nonlinear DOF: time series of the displacement, slider seed
`ft[-1] = kt*(unlt[-1] - u0)`, exactly two repeats of the hysteresis loop,
then the Fourier coefficients of the force series. -/
noncomputable def localAftJenkins (Uloc : ℕ → ℝ) (kt Fs u0 : ℝ)
    (h : List ℕ) (Nt : ℕ) : ℕ → ℝ :=
  let unlt := fun j => tsdVal Nt h (fun rr _ => Uloc rr) 0 j 0
  let ftInit : ℕ → ℝ :=
    fun t => if t = Nt - 1 then kt * (unlt (Nt - 1) - u0) else 0
  let ft := jenkinsSweep Nt kt Fs unlt (jenkinsSweep Nt kt Fs unlt ftInit)
  fun r => jaxGetFourierCoeff h Nt (fun j _ => ft j) r 0

/-- `JenkinsForce.aft(U, w, h, Nt)` (jenkins_element.py lines 116-215):
transform to the local coordinate, pick the slider start (zeroth harmonic
when `u0 = None`), run the local AFT, and convert force and gradients back
to global coordinates.  The autodiff Jacobian `dFdUwlocal` computed by
`_local_aft_jenkins_grad` is an opaque deterministic kernel (`gradK`)
applied to the same inputs — the spec treats automatic differentiation as
an external capability.  The method assigns no attributes, so the returned
object state is the input state. -/
noncomputable def JenkinsForce.aft (jf : JenkinsForce)
    (gradK : (ℕ → ℝ) → ℝ → ℝ → ℝ → ℝ → List ℕ → ℕ → (ℕ → ℕ → ℝ))
    (U : ℕ → ℝ) (w : ℝ) (h : List ℕ) (Nt : ℕ) :
    ((ℕ → ℝ) × (ℕ → ℕ → ℝ) × (ℕ → ℝ)) × JenkinsForce :=
  let Nhc := NhcCount h
  let Ulocal := fun c => ∑ k in Finset.range jf.N, jf.Q 0 k * U (c * jf.N + k)
  let u0val := match jf.u0 with
    | none => Ulocal 0
    | some v => v
  let Flocal := localAftJenkins Ulocal jf.kt jf.Fs u0val h Nt
  let dFdUw := gradK Ulocal w jf.kt jf.Fs u0val h Nt
  let Fnl := fun a => jf.T (a % jf.N) 0 * Flocal (a / jf.N)
  let dFnldU := fun a b =>
    jf.T (a % jf.N) 0 * dFdUw (a / jf.N) (b / jf.N) * jf.Q 0 (b % jf.N)
  let dFnldw := fun a => jf.T (a % jf.N) 0 * dFdUw (a / jf.N) Nhc
  ((Fnl, dFnldU, dFnldw), jf)

/-- Modelled from the spec: the asperity-level force laws
(`rough_contact/_asperity_functions.py`, imported by `rough_contact.py`
but not present under `src/`; spec §1 excludes "rough-contact asperity
mechanics" as an external collaborator).  They are modelled as opaque
deterministic functions with the argument lists of the source call
sites. -/
structure AsperityKernels where
  normal_general : (ℕ → ℝ) → (ℕ → ℝ) → (ℕ → ℝ) → ℝ → ℝ → ℝ → ℝ → ℝ →
    ℝ → ℝ → ((ℕ → ℝ) × (ℕ → ℝ) × (ℕ → ℝ) × (ℕ → ℝ))
  normal_unloading : (ℕ → ℝ) → (ℕ → ℝ) → (ℕ → ℝ) → ℝ → ℝ →
    ((ℕ → ℝ) × (ℕ → ℝ) × (ℕ → ℝ) × (ℕ → ℝ))
  tangential : (ℕ → ℝ) → (ℕ → ℝ) → (ℕ → ℕ → ℝ) → (ℕ → ℝ) → (ℕ → ℝ) →
    ℝ → ℝ → (ℕ → ℕ → ℝ)

/-- `RoughContactFriction` (rough_contact.py lines 103-181): matrices,
material constants, derived constants, topology, and the history
variables `unmax`, `Fm_prev`, `fxy0`, `uxyn0` set by `init_history`. -/
structure RoughContactFriction where
  N : ℕ
  Nasp : ℕ
  Q : ℕ → ℕ → ℝ
  T : ℕ → ℕ → ℝ
  elastic_mod : ℝ
  poisson : ℝ
  Re : ℝ
  tangent_mod : ℝ
  sys : ℝ
  mu : ℝ
  real_mu : ℝ
  prestress_mu : ℝ
  u0 : ℝ
  Estar : ℝ
  shear_mod : ℝ
  Gstar : ℝ
  delta_y : ℝ
  meso_gap : ℝ
  gaps : ℕ → ℝ
  gap_weights : ℕ → ℝ
  uxyn_initialize : ℕ → ℝ
  unmax : ℝ
  Fm_prev : ℕ → ℝ
  fxy0 : ℕ → ℕ → ℝ
  uxyn0 : ℕ → ℝ

/-- `RoughContactFriction.update_history` (rough_contact.py lines
183-188): the explicit history-commit operation (contrast: `aft` below
never invokes it). -/
noncomputable def RoughContactFriction.update_history
    (rc : RoughContactFriction) (uxyn : ℕ → ℝ) (Fm_curr : ℕ → ℝ)
    (fxy_curr : ℕ → ℕ → ℝ) : RoughContactFriction :=
  { rc with
    unmax := max (uxyn 2) rc.unmax,
    Fm_prev := Fm_curr,
    fxy0 := fxy_curr,
    uxyn0 := uxyn }

/-- The maximum of a (nonempty) list of reals, as `numpy.max`. -/
noncomputable def realListMax : List ℝ → ℝ
  | [] => 0
  | a :: t => t.foldl max a

/-- `_local_loop_body` (rough_contact.py lines 559-639, `'TAN'` tangent
model): normal unloading forces, tangential forces, and integration of
the asperity forces into the total element forces at instant `ind`.  The
history tuple is `(fxyn_t, uxyn0, fxy0, deltam, Fm)` (the quadrature radii
entry is ignored by the `'TAN'` model and omitted). -/
noncomputable def rcLoopBody (ak : AsperityKernels) (Nasp : ℕ)
    (unlt : ℕ → ℕ → ℝ) (mu meso_gap : ℝ) (gaps gap_weights : ℕ → ℝ)
    (Re Estar Gstar : ℝ) (ind : ℕ)
    (hist : (ℕ → ℕ → ℝ) × (ℕ → ℝ) × (ℕ → ℕ → ℝ) × (ℕ → ℝ) × (ℕ → ℝ)) :
    (ℕ → ℕ → ℝ) × (ℕ → ℝ) × (ℕ → ℕ → ℝ) × (ℕ → ℝ) × (ℕ → ℝ) :=
  let fxyn_t := hist.1
  let uxyn0 := hist.2.1
  let fxy0 := hist.2.2.1
  let deltam := hist.2.2.2.1
  let Fm := hist.2.2.2.2
  let un := fun asp => unlt ind 2 - meso_gap - gaps asp
  let nr := ak.normal_unloading un deltam Fm Re Estar
  let fn_curr := nr.1
  let a := nr.2.1
  let fxy_curr := ak.tangential (fun xy => unlt ind xy)
    (fun xy => uxyn0 xy) fxy0 fn_curr a Gstar mu
  let fxyn_t2 := fun t xy =>
    if t = ind then
      if xy = 2 then ∑ asp in Finset.range Nasp, fn_curr asp * gap_weights asp
      else ∑ asp in Finset.range Nasp, gap_weights asp * fxy_curr asp xy
    else fxyn_t t xy
  (fxyn_t2, fun xy => unlt ind xy, fxy_curr, deltam, Fm)

/-- `_local_force_history` (rough_contact.py lines 642-723, `'TAN'`
model): normal-direction initialization from the displacement maximum,
then `repeats` sweeps of the loop body over the `Nt` samples. -/
noncomputable def rcLocalForceHistory (ak : AsperityKernels)
    (Nasp Nt : ℕ) (unlt : ℕ → ℕ → ℝ) (unlth0 : ℕ → ℝ)
    (mu meso_gap : ℝ) (gaps gap_weights : ℕ → ℝ)
    (Re Possion Estar Emod Etan delta_y Sys Gstar : ℝ)
    (repeats : ℕ) : ℕ → ℕ → ℝ :=
  let unmax := realListMax ((List.range Nt).map (fun j => unlt j 2))
  let deltam := fun asp => 0 - meso_gap - gaps asp
  let unmax_asp := fun asp => unmax - meso_gap - gaps asp
  let ng := ak.normal_general unmax_asp deltam (fun _ => 0) Re Possion
    Estar Emod Etan delta_y Sys
  let fn := ng.1
  let hist0 : (ℕ → ℕ → ℝ) × (ℕ → ℝ) × (ℕ → ℕ → ℝ) × (ℕ → ℝ) × (ℕ → ℝ) :=
    (fun _ _ => 0, fun xy => unlth0 xy * 1, fun _ _ => 0, unmax_asp, fn)
  let histN := (List.range repeats).foldl
    (fun hist _ => (List.range Nt).foldl
      (fun hh i => rcLoopBody ak Nasp unlt mu meso_gap gaps gap_weights
        Re Estar Gstar i hh) hist) hist0
  histN.1

/-- `RoughContactFriction.aft(U, w, h, Nt)` (rough_contact.py lines
331-448, `calc_grad=True`, `return_local=False` path): transform to local
coordinates, run `_local_aft` (time series, `_local_force_history` with 2
repeats, Fourier coefficients), and convert back to global coordinates.
The autodiff Jacobian from `_local_aft_grad` is an opaque deterministic
kernel applied to the same state and inputs.  The method assigns no
attributes — in particular it never calls `update_history` — so the
returned object state is the input state. -/
noncomputable def RoughContactFriction.aft (rc : RoughContactFriction)
    (ak : AsperityKernels)
    (gradK : RoughContactFriction → (ℕ → ℕ → ℝ) → ℝ → List ℕ → ℕ →
      (ℕ → ℕ → ℝ))
    (U : ℕ → ℝ) (w : ℝ) (h : List ℕ) (Nt : ℕ) :
    ((ℕ → ℝ) × (ℕ → ℕ → ℝ) × (ℕ → ℝ)) × RoughContactFriction :=
  let Nhc := NhcCount h
  let Ulocal := fun r dof =>
    ∑ k in Finset.range rc.N, rc.Q dof k * U (r * rc.N + k)
  let unlt := fun j dof => tsdVal Nt h Ulocal 0 j dof
  let ft := rcLocalForceHistory ak rc.Nasp Nt unlt rc.uxyn_initialize
    rc.mu rc.meso_gap rc.gaps rc.gap_weights rc.Re rc.poisson rc.Estar
    rc.elastic_mod rc.tangent_mod rc.delta_y rc.sys rc.Gstar 2
  let FlocalFlat := fun a => jaxGetFourierCoeff h Nt ft (a / 3) (a % 3)
  let dFdUw := gradK rc Ulocal w h Nt
  let Fnl := fun a => ∑ dof in Finset.range 3,
    rc.T (a % rc.N) dof * FlocalFlat (dof + 3 * (a / rc.N))
  let dFnldU := fun a b => ∑ dof in Finset.range 3,
    ∑ dof2 in Finset.range 3,
      rc.T (a % rc.N) dof * dFdUw (dof + 3 * (a / rc.N))
        (dof2 + 3 * (b / rc.N)) * rc.Q dof2 (b % rc.N)
  let dFnldw := fun a => ∑ dof in Finset.range 3,
    rc.T (a % rc.N) dof * dFdUw (dof + 3 * (a / rc.N)) (3 * Nhc)
  ((Fnl, dFnldU, dFnldw), rc)

end Tmdsimpy

/-! ## Claim theorems (solver tolerance mapping, continuation config) -/

open Tmdsimpy

/-- The first attempted step size recorded by `retryLoop` is the entry
value of `ds`. -/
theorem retryLoop_trace_head (succ : ℚ → Bool) (dsmin : ℚ) (fuel : ℕ)
    (ds : ℚ) : (retryLoop succ dsmin fuel ds).2.2.head? = some ds := by
  cases fuel with
  | zero => simp [retryLoop]
  | succ n =>
    simp only [retryLoop]
    split_ifs <;> simp

/-- Consecutive attempted step sizes within one `FracLam` value are related
by halving clamped at `dsmin`. -/
theorem retryLoop_trace_chain (succ : ℚ → Bool) (dsmin : ℚ) (fuel : ℕ)
    (ds : ℚ) :
    List.Chain' (fun a b => b = max (a / 2) dsmin)
      (retryLoop succ dsmin fuel ds).2.2 := by
  induction fuel generalizing ds with
  | zero => simp [retryLoop]
  | succ n ih =>
    simp only [retryLoop]
    split_ifs with h1 h2
    · simp
    · rw [List.chain'_cons']
      refine ⟨?_, ih _⟩
      intro y hy
      rw [retryLoop_trace_head] at hy
      simp only [Option.mem_def, Option.some.injEq] at hy
      exact hy.symm
    · simp

/-- No attempted step size drops below `dsmin` (when the entry value is at
least `dsmin`). -/
theorem retryLoop_trace_lb (succ : ℚ → Bool) (dsmin : ℚ) (fuel : ℕ)
    (ds : ℚ) (hds : dsmin ≤ ds) :
    ∀ d ∈ (retryLoop succ dsmin fuel ds).2.2, dsmin ≤ d := by
  induction fuel generalizing ds with
  | zero =>
    simp only [retryLoop]
    intro d hd
    simp only [List.mem_singleton] at hd
    exact hd ▸ hds
  | succ n ih =>
    simp only [retryLoop]
    split_ifs with h1 h2
    · intro d hd
      simp only [List.mem_singleton] at hd
      exact hd ▸ hds
    · intro d hd
      simp only [List.mem_cons] at hd
      rcases hd with rfl | hd
      · exact hds
      · exact ih (max (ds / 2) dsmin) (le_max_right _ _) d hd
    · intro d hd
      simp only [List.mem_singleton] at hd
      exact hd ▸ hds

/-- If all attempts for one `FracLam` value fail, the final step size is
exactly `dsmin` (provided the halving fuel suffices, i.e.
`ds ≤ dsmin * 2 ^ fuel`). -/
theorem retryLoop_fail_final (succ : ℚ → Bool) (dsmin : ℚ) (fuel : ℕ)
    (ds : ℚ) (h0 : 0 < dsmin) (h1 : dsmin ≤ ds)
    (h2 : ds ≤ dsmin * 2 ^ fuel) :
    (retryLoop succ dsmin fuel ds).1 = false →
      (retryLoop succ dsmin fuel ds).2.1 = dsmin := by
  induction fuel generalizing ds with
  | zero =>
    simp only [retryLoop, pow_zero, mul_one] at h2 ⊢
    intro _
    exact le_antisymm h2 h1
  | succ n ih =>
    simp only [retryLoop]
    split_ifs with hs hlt
    · intro hcon
      exact absurd hcon (by simp)
    · intro hcon
      refine ih (max (ds / 2) dsmin) (le_max_right _ _) ?_ hcon
      rw [max_le_iff]
      constructor
      · rw [div_le_iff₀ (by norm_num : (0:ℚ) < 2)]
        calc ds ≤ dsmin * 2 ^ (n + 1) := h2
          _ = dsmin * 2 ^ n * 2 := by ring
      · calc dsmin = dsmin * 1 := (mul_one dsmin).symm
          _ ≤ dsmin * 2 ^ n := by
              apply mul_le_mul_of_nonneg_left _ (le_of_lt h0)
              exact one_le_pow₀ (by norm_num)
    · intro _
      exact le_antisymm (not_lt.mp hlt) h1

/-- If the iteration loop broke on a NaN, it reports failure. -/
theorem nsolveIter_nan_fail (reformFreq : ℕ) (stopping : List TolKey)
    (tols : TolKey → ℚ) :
    ∀ (trace : List IterEval) (bfgsInd nfev njev : ℕ) (lastErrs : ConvErrs),
      (nsolveIter reformFreq stopping tols bfgsInd nfev njev lastErrs
        trace).1.nanStop = true →
      (nsolveIter reformFreq stopping tols bfgsInd nfev njev lastErrs
        trace).1.success = false := by
  intro trace
  induction trace with
  | nil => intro bfgsInd nfev njev lastErrs h; simp [nsolveIter] at h
  | cons it rest ih =>
    intro bfgsInd nfev njev lastErrs h
    simp only [nsolveIter] at h ⊢
    split_ifs at h ⊢ with h1 h2 h3 h4 h5 h6 h7 h8
    all_goals first
      | rfl
      | (exact ih _ _ _ _ h)

/-- The `nanStop` flag of the full solve equals that of the iteration
loop (the post-loop accepting check does not modify it). -/
theorem nsolve_model_nanStop (reformFreq : ℕ)
    (stopping accepting : List TolKey) (tols : TolKey → ℚ)
    (initErrs : ConvErrs) (trace : List IterEval) :
    (nsolve_model reformFreq stopping accepting tols initErrs
        trace).nanStop =
      (nsolveIter reformFreq stopping tols 0 0 0 initErrs
        trace).1.nanStop := by
  unfold nsolve_model
  dsimp only []
  split_ifs <;> rfl

/-- A block write leaves entries outside its row range unchanged. -/
theorem setBlock_row_out (E : ℕ → ℕ → ℚ) (nd r0 c0 : ℕ)
    (B : ℕ → ℕ → ℚ) (i j : ℕ) (hrow : i < r0 ∨ r0 + nd ≤ i) :
    setBlock E nd r0 c0 B i j = E i j := by
  unfold setBlock
  rw [if_neg]
  rintro ⟨hr1, hr2, -, -⟩
  rcases hrow with hlt | hge
  · exact absurd hr1 (not_le.mpr hlt)
  · exact absurd hr2 (not_lt.mpr hge)

/-- A block write leaves entries outside its column range unchanged. -/
theorem setBlock_col_out (E : ℕ → ℕ → ℚ) (nd r0 c0 : ℕ)
    (B : ℕ → ℕ → ℚ) (i j : ℕ) (hcol : j < c0 ∨ c0 + nd ≤ j) :
    setBlock E nd r0 c0 B i j = E i j := by
  unfold setBlock
  rw [if_neg]
  rintro ⟨-, -, hc1, hc2⟩
  rcases hcol with hlt | hge
  · exact absurd hc1 (not_le.mpr hlt)
  · exact absurd hc2 (not_lt.mpr hge)

/-- A block write sets entries inside the block. -/
theorem setBlock_in (E : ℕ → ℕ → ℚ) (nd r0 c0 : ℕ) (B : ℕ → ℕ → ℚ)
    (r s : ℕ) (hr : r < nd) (hs : s < nd) :
    setBlock E nd r0 c0 B (r0 + r) (c0 + s) = B r s := by
  unfold setBlock
  rw [if_pos]
  · congr 1 <;> omega
  · refine ⟨Nat.le_add_right _ _, by omega, Nat.le_add_right _ _, by omega⟩

/-- One harmonic step only writes rows `[nd*p, nd*(p+2))`: entries with
rows below that range are unchanged. -/
theorem hsStep_rows_below (nd : ℕ) (M C K : ℕ → ℕ → ℚ) (w : ℚ)
    (onlyC : Bool) (p k : ℕ) (E : ℕ → ℕ → ℚ) (i j : ℕ)
    (hi : i < nd * p) :
    hsStep nd M C K w onlyC p k E i j = E i j := by
  have hip1 : i < nd * (p + 1) :=
    lt_of_lt_of_le hi (Nat.mul_le_mul_left nd (by omega))
  unfold hsStep
  split_ifs
  · rw [setBlock_row_out _ _ _ _ _ _ _ (Or.inl hip1),
      setBlock_row_out _ _ _ _ _ _ _ (Or.inl hi)]
  · rw [setBlock_row_out _ _ _ _ _ _ _ (Or.inl hip1),
      setBlock_row_out _ _ _ _ _ _ _ (Or.inl hi),
      setBlock_row_out _ _ _ _ _ _ _ (Or.inl hip1),
      setBlock_row_out _ _ _ _ _ _ _ (Or.inl hi)]

/-- One harmonic step leaves entries with rows at or above `nd*(p+2)`
unchanged. -/
theorem hsStep_rows_above (nd : ℕ) (M C K : ℕ → ℕ → ℚ) (w : ℚ)
    (onlyC : Bool) (p k : ℕ) (E : ℕ → ℕ → ℚ) (i j : ℕ)
    (hi : nd * (p + 2) ≤ i) :
    hsStep nd M C K w onlyC p k E i j = E i j := by
  have h1 : nd * p + nd ≤ i := by
    have := hi
    rw [Nat.mul_add] at this
    omega
  have h2 : nd * (p + 1) + nd ≤ i := by
    have := hi
    rw [Nat.mul_add] at this
    rw [Nat.mul_add]
    omega
  unfold hsStep
  split_ifs
  · rw [setBlock_row_out _ _ _ _ _ _ _ (Or.inr h2),
      setBlock_row_out _ _ _ _ _ _ _ (Or.inr h1)]
  · rw [setBlock_row_out _ _ _ _ _ _ _ (Or.inr h2),
      setBlock_row_out _ _ _ _ _ _ _ (Or.inr h1),
      setBlock_row_out _ _ _ _ _ _ _ (Or.inr h2),
      setBlock_row_out _ _ _ _ _ _ _ (Or.inr h1)]

/-- Top-right block after one harmonic step: `(k*w)*C`. -/
theorem hsStep_TR (nd : ℕ) (M C K : ℕ → ℕ → ℚ) (w : ℚ) (onlyC : Bool)
    (p k : ℕ) (E : ℕ → ℕ → ℚ) (r s : ℕ) (hr : r < nd) (hs : s < nd) :
    hsStep nd M C K w onlyC p k E (nd * p + r) (nd * (p + 1) + s) =
      ((k : ℚ) * w) * C r s := by
  have hrow : nd * p + r < nd * (p + 1) := by
    rw [Nat.mul_add]; omega
  have hcol : nd * p + nd ≤ nd * (p + 1) + s := by
    rw [Nat.mul_add]; omega
  unfold hsStep
  split_ifs
  · rw [setBlock_row_out _ _ _ _ _ _ _ (Or.inl hrow),
      setBlock_in _ _ _ _ _ _ _ hr hs]
  · rw [setBlock_row_out _ _ _ _ _ _ _ (Or.inl hrow),
      setBlock_col_out _ _ _ _ _ _ _ (Or.inr hcol),
      setBlock_row_out _ _ _ _ _ _ _ (Or.inl hrow),
      setBlock_in _ _ _ _ _ _ _ hr hs]

/-- Bottom-left block after one harmonic step: `(-k*w)*C`. -/
theorem hsStep_BL (nd : ℕ) (M C K : ℕ → ℕ → ℚ) (w : ℚ) (onlyC : Bool)
    (p k : ℕ) (E : ℕ → ℕ → ℚ) (r s : ℕ) (hr : r < nd) (hs : s < nd) :
    hsStep nd M C K w onlyC p k E (nd * (p + 1) + r) (nd * p + s) =
      (-((k : ℚ) * w)) * C r s := by
  have hcol : nd * p + s < nd * (p + 1) := by
    rw [Nat.mul_add]; omega
  have hrow : nd * p + nd ≤ nd * (p + 1) + r := by
    rw [Nat.mul_add]; omega
  unfold hsStep
  split_ifs
  · rw [setBlock_in _ _ _ _ _ _ _ hr hs]
  · rw [setBlock_col_out _ _ _ _ _ _ _ (Or.inl hcol),
      setBlock_row_out _ _ _ _ _ _ _ (Or.inr hrow),
      setBlock_in _ _ _ _ _ _ _ hr hs]

/-- Top-left block after one harmonic step: `K - (k*w)²*M`, or the prior
entry when `only_C`. -/
theorem hsStep_TL (nd : ℕ) (M C K : ℕ → ℕ → ℚ) (w : ℚ) (onlyC : Bool)
    (p k : ℕ) (E : ℕ → ℕ → ℚ) (r s : ℕ) (hr : r < nd) (hs : s < nd) :
    hsStep nd M C K w onlyC p k E (nd * p + r) (nd * p + s) =
      if onlyC then E (nd * p + r) (nd * p + s)
      else K r s + (-(((k : ℚ) * w) ^ 2)) * M r s := by
  have hrow : nd * p + r < nd * (p + 1) := by
    rw [Nat.mul_add]; omega
  have hcol : nd * p + s < nd * (p + 1) := by
    rw [Nat.mul_add]; omega
  unfold hsStep
  split_ifs
  · rw [setBlock_row_out _ _ _ _ _ _ _ (Or.inl hrow),
      setBlock_col_out _ _ _ _ _ _ _ (Or.inl hcol)]
  · rw [setBlock_row_out _ _ _ _ _ _ _ (Or.inl hrow),
      setBlock_in _ _ _ _ _ _ _ hr hs]

/-- Bottom-right block after one harmonic step: `K - (k*w)²*M`, or the
prior entry when `only_C`. -/
theorem hsStep_BR (nd : ℕ) (M C K : ℕ → ℕ → ℚ) (w : ℚ) (onlyC : Bool)
    (p k : ℕ) (E : ℕ → ℕ → ℚ) (r s : ℕ) (hr : r < nd) (hs : s < nd) :
    hsStep nd M C K w onlyC p k E (nd * (p + 1) + r) (nd * (p + 1) + s) =
      if onlyC then E (nd * (p + 1) + r) (nd * (p + 1) + s)
      else K r s + (-(((k : ℚ) * w) ^ 2)) * M r s := by
  have hrow : nd * p + nd ≤ nd * (p + 1) + r := by
    rw [Nat.mul_add]; omega
  have hcol : nd * p + nd ≤ nd * (p + 1) + s := by
    rw [Nat.mul_add]; omega
  unfold hsStep
  split_ifs
  · rw [setBlock_col_out _ _ _ _ _ _ _ (Or.inr hcol),
      setBlock_row_out _ _ _ _ _ _ _ (Or.inr hrow)]
  · rw [setBlock_in _ _ _ _ _ _ _ hr hs]

/-- The harmonic loop never touches rows below its starting block row. -/
theorem hsLoop_preserve (nd : ℕ) (M C K : ℕ → ℕ → ℚ) (w : ℚ)
    (onlyC : Bool) :
    ∀ (rest : List ℕ) (p : ℕ) (E : ℕ → ℕ → ℚ) (i j : ℕ), i < nd * p →
      hsLoop nd M C K w onlyC p rest E i j = E i j := by
  intro rest
  induction rest with
  | nil => intro p E i j _; rfl
  | cons k rest ih =>
    intro p E i j hi
    show hsLoop nd M C K w onlyC (p + 2) rest _ i j = E i j
    rw [ih (p + 2) _ i j (lt_of_lt_of_le hi (Nat.mul_le_mul_left nd
      (by omega)))]
    exact hsStep_rows_below nd M C K w onlyC p k E i j hi

/-- Evaluation of the harmonic loop at the blocks of the `m`-th processed
harmonic: the block-of-blocks at component indices `(p+2m, p+2m+1)` holds
`[[K-(kw)²M, kwC], [-kwC, K-(kw)²M]]`, the diagonal blocks being left at
their prior values when `only_C` is set. -/
theorem hsLoop_eval (nd : ℕ) (M C K : ℕ → ℕ → ℚ) (w : ℚ) (onlyC : Bool) :
    ∀ (rest : List ℕ) (m p : ℕ) (E : ℕ → ℕ → ℚ) (hm : m < rest.length)
      (r s : ℕ), r < nd → s < nd →
      (hsLoop nd M C K w onlyC p rest E (nd * (p + 2 * m) + r)
          (nd * (p + 2 * m + 1) + s) =
        ((rest.get ⟨m, hm⟩ : ℚ) * w) * C r s) ∧
      (hsLoop nd M C K w onlyC p rest E (nd * (p + 2 * m + 1) + r)
          (nd * (p + 2 * m) + s) =
        (-((rest.get ⟨m, hm⟩ : ℚ) * w)) * C r s) ∧
      (hsLoop nd M C K w onlyC p rest E (nd * (p + 2 * m) + r)
          (nd * (p + 2 * m) + s) =
        if onlyC then E (nd * (p + 2 * m) + r) (nd * (p + 2 * m) + s)
        else K r s + (-(((rest.get ⟨m, hm⟩ : ℚ) * w) ^ 2)) * M r s) ∧
      (hsLoop nd M C K w onlyC p rest E (nd * (p + 2 * m + 1) + r)
          (nd * (p + 2 * m + 1) + s) =
        if onlyC then
          E (nd * (p + 2 * m + 1) + r) (nd * (p + 2 * m + 1) + s)
        else K r s + (-(((rest.get ⟨m, hm⟩ : ℚ) * w) ^ 2)) * M r s) := by
  intro rest
  induction rest with
  | nil => intro m p E hm; exact absurd hm (by simp)
  | cons k rest ih =>
    intro m p E hm r s hr hs
    match m with
    | 0 =>
      simp only [Nat.mul_zero, Nat.add_zero, List.get]
      have hrow1 : nd * p + r < nd * (p + 2) := by
        rw [Nat.mul_add]; omega
      have hrow2 : nd * (p + 1) + r < nd * (p + 2) := by
        rw [Nat.mul_add, Nat.mul_add]; omega
      simp only [hsLoop]
      rw [hsLoop_preserve nd M C K w onlyC rest (p + 2) _ _ _ hrow1,
        hsLoop_preserve nd M C K w onlyC rest (p + 2) _ _ _ hrow2,
        hsLoop_preserve nd M C K w onlyC rest (p + 2) _ _ _ hrow1,
        hsLoop_preserve nd M C K w onlyC rest (p + 2) _ _ _ hrow2]
      exact ⟨hsStep_TR nd M C K w onlyC p k E r s hr hs,
        hsStep_BL nd M C K w onlyC p k E r s hr hs,
        hsStep_TL nd M C K w onlyC p k E r s hr hs,
        hsStep_BR nd M C K w onlyC p k E r s hr hs⟩
    | m' + 1 =>
      have hm' : m' < rest.length := Nat.lt_of_succ_lt_succ hm
      have hshift : p + 2 * (m' + 1) = (p + 2) + 2 * m' := by omega
      have hget : ((k :: rest).get ⟨m' + 1, hm⟩ : ℕ) =
        rest.get ⟨m', hm'⟩ := rfl
      have habove1 : nd * (p + 2) ≤ nd * ((p + 2) + 2 * m') + r :=
        le_add_right (Nat.mul_le_mul_left nd (by omega))
      have habove2 : nd * (p + 2) ≤ nd * ((p + 2) + 2 * m' + 1) + r :=
        le_add_right (Nat.mul_le_mul_left nd (by omega))
      have key := ih m' (p + 2) (hsStep nd M C K w onlyC p k E) hm' r s
        hr hs
      rw [hshift, hget]
      simp only [hsLoop]
      refine ⟨key.1, key.2.1, ?_, ?_⟩
      · rw [key.2.2.1]
        split_ifs
        · exact hsStep_rows_above nd M C K w onlyC p k E _ _ habove1
        · rfl
      · rw [key.2.2.2]
        split_ifs
        · exact hsStep_rows_above nd M C K w onlyC p k E _ _ habove2
        · rfl

/-- C1: the claim says each named tolerance is compared against its own
corresponding quantity, in particular `xtol_rel` against the relative step
norm `|deltaX|/|deltaX_0|`.  The code's `error_dict` instead maps
`'xtol_rel'` to the relative energy quantity (and `'etol_rel'` to the
relative step quantity): with `stopping_tol = ['xtol_rel']`, a state whose
relative step norm `u_rel = 1/10` is below the tolerance `1/2` is reported
as NOT converged, because `e_rel = 10` is compared instead. -/
theorem C1_xtol_rel_swapped :
    check_convg [TolKey.xtolRel] (fun _ => (1 : ℚ) / 2) smallStepErrs = false ∧
    |smallStepErrs.u_rel| < (1 : ℚ) / 2 := by
  constructor
  · simp only [check_convg, errorDict, List.foldl, Bool.false_or,
      decide_eq_false_iff_not, not_lt, smallStepErrs]
    norm_num
  · simp only [smallStepErrs]
    rw [abs_of_nonneg (by norm_num)]
    norm_num

/-- C10: constructing a `Continuation` whose config `FracLamList` does not
start with the configured `FracLam` inserts `FracLam` at index 0 of the
caller's list object in place, so the caller-visible list differs after
construction, and a second construction from the same (now modified) config
leaves the list unchanged. -/
theorem C10_fracLamList_mutated (fracLam : ℚ) (fll : List ℚ)
    (hne : ¬(fll.head? = some fracLam)) :
    initFracLamList fracLam fll = fracLam :: fll ∧
    initFracLamList fracLam fll ≠ fll ∧
    initFracLamList fracLam (initFracLamList fracLam fll) =
      initFracLamList fracLam fll := by
  have h1 : initFracLamList fracLam fll = fracLam :: fll := by
    unfold initFracLamList
    rw [if_pos (Or.inr hne)]
  refine ⟨h1, ?_, ?_⟩
  · rw [h1]
    intro hEq
    have := congrArg List.length hEq
    simp at this
  · rw [h1]
    unfold initFracLamList
    rw [if_neg]
    simp

/-- Witness for C10 at `FracLam = 2`, `FracLamList = [1]`. -/
theorem C10_fracLamList_mutated_witness :
    initFracLamList (2 : ℚ) [1] = (2 : ℚ) :: [1] ∧
    initFracLamList (2 : ℚ) [1] ≠ [1] ∧
    initFracLamList (2 : ℚ) (initFracLamList (2 : ℚ) [1]) =
      initFracLamList (2 : ℚ) [1] :=
  C10_fracLamList_mutated (2 : ℚ) [1] (by norm_num)

/-- C5 counterexample: the dynamic conditioning vector is NOT monotonically
non-decreasing over successive accepted steps.  With floor `CtoP0 = 1` and
accepted points of magnitude `5` at step 0 and `1` at step 1, the `CtoP`
used at step 2 is `1 < 5`, the value used at step 1. -/
theorem C5_ctop_not_monotone :
    dynamicCtoP (fun _ => (1 : ℚ))
        (fun s _ => if s = 0 then (5 : ℚ) else 1) 2 0 <
      dynamicCtoP (fun _ => (1 : ℚ))
        (fun s _ => if s = 0 then (5 : ℚ) else 1) 1 0 := by
  norm_num [dynamicCtoP]

/-- C5 (amended): at every step where the dynamic conditioning update runs,
`CtoP` equals the elementwise maximum of the magnitude of the last accepted
point and the floor fixed at the start of the run, hence is elementwise at
least the floor; but since the maximum is taken against the floor, not
against the previous `CtoP`, the sequence over steps can decrease. -/
theorem C5_ctop_floor (ctop0 : ℕ → ℚ) (hist : ℕ → ℕ → ℚ) (step i : ℕ) :
    ctop0 i ≤ dynamicCtoP ctop0 hist step i ∧
    dynamicCtoP ctop0 hist step i = max |hist (step - 1) i| (ctop0 i) := by
  exact ⟨le_max_right _ _, rfl⟩

/-- C6 counterexample: with every corrector attempt failing, `dsmin = 1`,
initial `ds = 4` and FracLam ladder indices `[0, 1]`, the attempt trace is
`[(0,4), (0,2), (0,1), (1,1)]`: after FracLam index 0 fails even at
`dsmin`, index 1 is attempted at `ds = 1 = dsmin`, not at the pre-ladder
value `4` as the claim states. -/
theorem C6_ds_not_restored :
    (ladderLoop (fun _ _ => false) 1 2 [0, 1] 4).2.2 =
      [(0, 4), (0, 2), (0, 1), (1, 1)] ∧
    ((1 : ℚ)) ≠ 4 := by
  constructor
  · norm_num [ladderLoop, retryLoop, max_def]
  · norm_num

/-- C6 (amended): within one continuation step, when the corrector fails the
step size is replaced by `max(ds/2, dsmin)` (halved, never below `dsmin`)
and the same FracLam value is retried; when the value fails even at
`dsmin`, the next FracLam value in the ladder is attempted starting from
the step size the previous value ended with — which is exactly `dsmin` —
rather than from its pre-ladder value. -/
theorem C6_retry_ladder (succ : ℕ → ℚ → Bool) (dsmin ds : ℚ) (fuel : ℕ)
    (ind1 ind2 : ℕ) (rest : List ℕ)
    (h0 : 0 < dsmin) (h1 : dsmin ≤ ds) (h2 : ds ≤ dsmin * 2 ^ fuel) :
    List.Chain' (fun a b => b = max (a / 2) dsmin)
      (retryLoop (succ ind1) dsmin fuel ds).2.2 ∧
    (∀ d ∈ (retryLoop (succ ind1) dsmin fuel ds).2.2, dsmin ≤ d) ∧
    ((retryLoop (succ ind1) dsmin fuel ds).1 = false →
      (retryLoop (succ ind1) dsmin fuel ds).2.1 = dsmin ∧
      (ladderLoop succ dsmin fuel (ind1 :: ind2 :: rest) ds).2.2 =
        (retryLoop (succ ind1) dsmin fuel ds).2.2.map (fun d => (ind1, d))
          ++ (ladderLoop succ dsmin fuel (ind2 :: rest) dsmin).2.2 ∧
      (ladderLoop succ dsmin fuel (ind2 :: rest) dsmin).2.2.head? =
        some (ind2, dsmin)) := by
  refine ⟨retryLoop_trace_chain _ _ _ _,
    retryLoop_trace_lb _ _ _ _ h1, ?_⟩
  intro hfail
  have hfin : (retryLoop (succ ind1) dsmin fuel ds).2.1 = dsmin :=
    retryLoop_fail_final _ _ _ _ h0 h1 h2 hfail
  refine ⟨hfin, ?_, ?_⟩
  · simp only [ladderLoop, hfail, hfin]
    simp
  · simp only [ladderLoop]
    rcases hsucc : (retryLoop (succ ind2) dsmin fuel dsmin).1 with _ | _
    · simp only [Bool.false_eq_true, if_false]
      rw [List.head?_append]
      rw [List.head?_map, retryLoop_trace_head]
      simp
    · simp only [if_true]
      rw [List.head?_map, retryLoop_trace_head]
      simp

/-- C7: if any NaN appears in the evaluated residual `R`, the Jacobian
`dRdX`, or the computed step `deltaX` during an `nsolve` run (the run's
`nanStop` flag is set), the solve reports `success = False`, and the result
is independent of the configured `accepting_tol` set — the fallback is not
applied after a NaN stop. -/
theorem C7_nan_fatal (reformFreq : ℕ)
    (stopping accepting accepting' : List TolKey) (tols : TolKey → ℚ)
    (initErrs : ConvErrs) (trace : List IterEval)
    (hnan : (nsolve_model reformFreq stopping accepting tols initErrs
      trace).nanStop = true) :
    (nsolve_model reformFreq stopping accepting tols initErrs
        trace).success = false ∧
    nsolve_model reformFreq stopping accepting tols initErrs trace =
      nsolve_model reformFreq stopping accepting' tols initErrs trace := by
  rw [nsolve_model_nanStop] at hnan
  have hfail := nsolveIter_nan_fail reformFreq stopping tols trace
    0 0 0 initErrs hnan
  have hres : ∀ acc : List TolKey,
      nsolve_model reformFreq stopping acc tols initErrs trace =
        (nsolveIter reformFreq stopping tols 0 0 0 initErrs trace).1 := by
    intro acc
    unfold nsolve_model
    rw [if_neg]
    intro hcon
    rw [hnan] at hcon
    simp at hcon
  refine ⟨?_, by rw [hres accepting, hres accepting']⟩
  rw [hres accepting]
  exact hfail

/-- Witness for C7: a one-iteration trace whose residual evaluation is NaN;
the solve fails regardless of the accepting tolerance set. -/
theorem C7_nan_fatal_witness :
    (nsolve_model 1 [TolKey.xtol] [TolKey.rtol] (fun _ => 1)
        { r_curr := 0, e_curr := 0, u_curr := 0,
          r_rel := 0, e_rel := 0, u_rel := 0 }
        [{ nanR := true, nanJ := false, nanDX := false,
           errs := { r_curr := 0, e_curr := 0, u_curr := 0,
                     r_rel := 0, e_rel := 0, u_rel := 0 } }]).nanStop
      = true ∧
    (nsolve_model 1 [TolKey.xtol] [TolKey.rtol] (fun _ => 1)
        { r_curr := 0, e_curr := 0, u_curr := 0,
          r_rel := 0, e_rel := 0, u_rel := 0 }
        [{ nanR := true, nanJ := false, nanDX := false,
           errs := { r_curr := 0, e_curr := 0, u_curr := 0,
                     r_rel := 0, e_rel := 0, u_rel := 0 } }]).success
      = false ∧
    nsolve_model 1 [TolKey.xtol] [TolKey.rtol] (fun _ => 1)
        { r_curr := 0, e_curr := 0, u_curr := 0,
          r_rel := 0, e_rel := 0, u_rel := 0 }
        [{ nanR := true, nanJ := false, nanDX := false,
           errs := { r_curr := 0, e_curr := 0, u_curr := 0,
                     r_rel := 0, e_rel := 0, u_rel := 0 } }] =
      nsolve_model 1 [TolKey.xtol] [] (fun _ => 1)
        { r_curr := 0, e_curr := 0, u_curr := 0,
          r_rel := 0, e_rel := 0, u_rel := 0 }
        [{ nanR := true, nanJ := false, nanDX := false,
           errs := { r_curr := 0, e_curr := 0, u_curr := 0,
                     r_rel := 0, e_rel := 0, u_rel := 0 } }] := by
  have h := C7_nan_fatal 1 [TolKey.xtol] [TolKey.rtol] [] (fun _ => 1)
      { r_curr := 0, e_curr := 0, u_curr := 0,
        r_rel := 0, e_rel := 0, u_rel := 0 }
      [{ nanR := true, nanJ := false, nanDX := false,
         errs := { r_curr := 0, e_curr := 0, u_curr := 0,
                   r_rel := 0, e_rel := 0, u_rel := 0 } }]
      (by rfl)
  exact ⟨by rfl, h.1, h.2⟩

/-- C8 counterexample: with `corrector='invalid'`, the continuation run's
event trace begins with the initial fixed-`lam0` nonlinear solve attempt;
the configuration error is only raised afterwards (at the first corrector
residual evaluation), so the error is NOT raised before any nonlinear
solve attempt is made. -/
theorem C8_error_not_before_solve :
    continuationFirstEvents "invalid" (1 / 2) 1 1 (fun _ => 1)
        (fun _ _ => 0) (fun _ _ _ => 0) (fun _ _ => 0)
        (fun _ => 0) (fun _ => 1) 1 (fun _ => 0) true =
      [CEvent.initialSolve true, CEvent.predictorEval,
        CEvent.configError "Invalid corrector type: INVALID"] ∧
    (continuationFirstEvents "invalid" (1 / 2) 1 1 (fun _ => 1)
        (fun _ _ => 0) (fun _ _ _ => 0) (fun _ _ => 0)
        (fun _ => 0) (fun _ => 1) 1 (fun _ => 0) true).head? =
      some (CEvent.initialSolve true) := by
  constructor
  · rfl
  · rfl

/-- C8 (amended): requesting a corrector value outside
`{'Ortho', 'Pseudo'}` raises the configuration error at the first
corrector residual evaluation of the first continuation step — after the
initial fixed-`lam0` nonlinear solve attempt, and before any corrector
solve runs. -/
theorem C8_invalid_corrector (corrector : String) (b RPtoC : ℚ) (n : ℕ)
    (CtoP : ℕ → ℚ) (funR : (ℕ → ℚ) → (ℕ → ℚ))
    (funDRdX : (ℕ → ℚ) → (ℕ → ℕ → ℚ)) (funDRdlam : (ℕ → ℚ) → (ℕ → ℚ))
    (XlamC XlamC0 : ℕ → ℚ) (ds : ℚ) (dirC : ℕ → ℚ)
    (h1 : ¬(pyUpper corrector = "PSEUDO"))
    (h2 : ¬(pyUpper corrector = "ORTHO")) :
    continuationFirstEvents corrector b RPtoC n CtoP funR funDRdX funDRdlam
        XlamC XlamC0 ds dirC true =
      [CEvent.initialSolve true, CEvent.predictorEval,
        CEvent.configError ("Invalid corrector type: "
          ++ pyUpper corrector)] := by
  simp only [continuationFirstEvents, correct_res, if_true, h1, h2,
    if_false]

/-- Witness for C8 at `corrector = "invalid"`. -/
theorem C8_invalid_corrector_witness :
    ¬(pyUpper "invalid" = "PSEUDO") ∧
    ¬(pyUpper "invalid" = "ORTHO") ∧
    continuationFirstEvents "invalid" (1 / 2) 1 1 (fun _ => 1)
        (fun _ _ => 0) (fun _ _ _ => 0) (fun _ _ => 0)
        (fun _ => 0) (fun _ => 1) 1 (fun _ => 0) true =
      [CEvent.initialSolve true, CEvent.predictorEval,
        CEvent.configError ("Invalid corrector type: "
          ++ pyUpper "invalid")] :=
  ⟨by decide, by decide,
    C8_invalid_corrector "invalid" (1 / 2) 1 1 (fun _ => 1)
      (fun _ _ => 0) (fun _ _ _ => 0) (fun _ _ => 0)
      (fun _ => 0) (fun _ => 1) 1 (fun _ => 0)
      (by decide) (by decide)⟩

/-- Witness for C6 at all-failing corrector, `dsmin = 1`, `ds = 4`,
`fuel = 2`, ladder `[0, 1]`. -/
theorem C6_retry_ladder_witness :
    (0 : ℚ) < 1 ∧ (1 : ℚ) ≤ 4 ∧ (4 : ℚ) ≤ 1 * 2 ^ 2 ∧
    (List.Chain' (fun a b => b = max (a / 2) 1)
      (retryLoop ((fun _ _ => false) 0) 1 2 4).2.2 ∧
    (∀ d ∈ (retryLoop ((fun _ _ => false) 0) 1 2 4).2.2, (1 : ℚ) ≤ d) ∧
    ((retryLoop ((fun _ _ => false) 0) 1 2 4).1 = false →
      (retryLoop ((fun _ _ => false) 0) 1 2 4).2.1 = 1 ∧
      (ladderLoop (fun _ _ => false) 1 2 [0, 1] 4).2.2 =
        (retryLoop ((fun _ _ => false) 0) 1 2 4).2.2.map (fun d => (0, d))
          ++ (ladderLoop (fun _ _ => false) 1 2 [1] 1).2.2 ∧
      (ladderLoop (fun _ _ => false) 1 2 [1] 1).2.2.head? =
        some (1, 1))) :=
  ⟨by norm_num, by norm_num, by norm_num,
    C6_retry_ladder (fun _ _ => false) 1 4 2 0 1 []
      (by norm_num) (by norm_num) (by norm_num)⟩

/-- C3: for a valid (duplicate-free, zero-harmonic-first) harmonic set,
`harmonic_stiffness` succeeds and returns a block matrix `E` in which the
harmonic-0 diagonal block equals `K` (zeroed when `only_C`), and for the
`m`-th non-constant harmonic `k` the 2×2 block-of-blocks at component
indices `(zi+2m, zi+2m+1)` is `[[K-(kw)²M, kwC], [-kwC, K-(kw)²M]]` — with
`+kwC` top-right and `-kwC` bottom-left — where the `K` and `M`
contributions become zero when `only_C` is true regardless of the values
passed for `K` and `M`. -/
theorem C3_harmonic_stiffness_blocks (nd : ℕ) (M C K : ℕ → ℕ → ℚ)
    (w : ℚ) (h : List ℕ) (onlyC : Bool) (hnodup : h.Nodup)
    (r s : ℕ) (hr : r < nd) (hs : s < nd) :
    harmonic_stiffness nd M C K w h onlyC =
      .ok (harmonic_stiffness_mat nd M C K w h onlyC,
        hsLoopDw nd M C w onlyC (ziOf h) (h.drop (ziOf h))
          (fun _ _ => 0)) ∧
    (h.head? = some 0 →
      harmonic_stiffness_mat nd M C K w h onlyC r s =
        if onlyC then 0 else K r s) ∧
    (∀ (m : ℕ) (hm : m < (h.drop (ziOf h)).length),
      (harmonic_stiffness_mat nd M C K w h onlyC
          (nd * (ziOf h + 2 * m) + r) (nd * (ziOf h + 2 * m + 1) + s) =
        (((h.drop (ziOf h)).get ⟨m, hm⟩ : ℚ) * w) * C r s) ∧
      (harmonic_stiffness_mat nd M C K w h onlyC
          (nd * (ziOf h + 2 * m + 1) + r) (nd * (ziOf h + 2 * m) + s) =
        (-(((h.drop (ziOf h)).get ⟨m, hm⟩ : ℚ) * w)) * C r s) ∧
      (harmonic_stiffness_mat nd M C K w h onlyC
          (nd * (ziOf h + 2 * m) + r) (nd * (ziOf h + 2 * m) + s) =
        if onlyC then 0
        else K r s
          + (-((((h.drop (ziOf h)).get ⟨m, hm⟩ : ℚ) * w) ^ 2)) * M r s) ∧
      (harmonic_stiffness_mat nd M C K w h onlyC
          (nd * (ziOf h + 2 * m + 1) + r)
          (nd * (ziOf h + 2 * m + 1) + s) =
        if onlyC then 0
        else K r s
          + (-((((h.drop (ziOf h)).get ⟨m, hm⟩ : ℚ) * w) ^ 2))
            * M r s)) := by
  refine ⟨?_, ?_, ?_⟩
  · unfold harmonic_stiffness Nhc
    rw [if_pos hnodup]
  · intro hh0
    have hzi : ziOf h = 1 := by simp [ziOf, hh0]
    simp only [harmonic_stiffness_mat, hzi]
    rw [hsLoop_preserve nd M C K w onlyC _ 1 _ r s (by omega : r < nd * 1)]
    have hsb := setBlock_in (fun _ _ => (0 : ℚ)) nd 0 0 K r s hr hs
    rcases onlyC with _ | _
    · simpa using hsb
    · simp
  · intro m hm
    simp only [harmonic_stiffness_mat]
    have key := hsLoop_eval nd M C K w onlyC (h.drop (ziOf h)) m (ziOf h)
      (if ziOf h = 1 ∧ ¬onlyC then setBlock (fun _ _ => 0) nd 0 0 K
        else fun _ _ => 0) hm r s hr hs
    refine ⟨key.1, key.2.1, ?_, ?_⟩
    · rw [key.2.2.1]
      rcases honly : onlyC with _ | _
      · simp
      · simp only [honly, Bool.true_eq_false, and_false, if_true]
        rw [if_neg (by simp)]
    · rw [key.2.2.2]
      rcases honly : onlyC with _ | _
      · simp
      · simp only [honly, Bool.true_eq_false, and_false, if_true]
        rw [if_neg (by simp)]

/-- Witness for C3 at `nd = 1`, `h = [0, 2]`, `M = 2`, `C = 3`, `K = 5`,
`w = 7`, `only_C = false`. -/
theorem C3_harmonic_stiffness_blocks_witness :
    List.Nodup ([0, 2] : List ℕ) ∧ (0 : ℕ) < 1 ∧
    (harmonic_stiffness 1 (fun _ _ => 2) (fun _ _ => 3) (fun _ _ => 5) 7
        ([0, 2] : List ℕ) false =
      .ok (harmonic_stiffness_mat 1 (fun _ _ => 2) (fun _ _ => 3)
          (fun _ _ => 5) 7 ([0, 2] : List ℕ) false,
        hsLoopDw 1 (fun _ _ => 2) (fun _ _ => 3) 7 false
          (ziOf ([0, 2] : List ℕ))
          (([0, 2] : List ℕ).drop (ziOf ([0, 2] : List ℕ)))
          (fun _ _ => 0)) ∧
    (([0, 2] : List ℕ).head? = some 0 →
      harmonic_stiffness_mat 1 (fun _ _ => 2) (fun _ _ => 3)
          (fun _ _ => 5) 7 ([0, 2] : List ℕ) false 0 0 =
        if false then 0 else (fun _ _ => (5 : ℚ)) 0 0) ∧
    (∀ (m : ℕ)
        (hm : m < (([0, 2] : List ℕ).drop
          (ziOf ([0, 2] : List ℕ))).length),
      (harmonic_stiffness_mat 1 (fun _ _ => 2) (fun _ _ => 3)
          (fun _ _ => 5) 7 ([0, 2] : List ℕ) false
          (1 * (ziOf ([0, 2] : List ℕ) + 2 * m) + 0)
          (1 * (ziOf ([0, 2] : List ℕ) + 2 * m + 1) + 0) =
        (((([0, 2] : List ℕ).drop
            (ziOf ([0, 2] : List ℕ))).get ⟨m, hm⟩ : ℚ) * 7)
          * (fun _ _ => (3 : ℚ)) 0 0) ∧
      (harmonic_stiffness_mat 1 (fun _ _ => 2) (fun _ _ => 3)
          (fun _ _ => 5) 7 ([0, 2] : List ℕ) false
          (1 * (ziOf ([0, 2] : List ℕ) + 2 * m + 1) + 0)
          (1 * (ziOf ([0, 2] : List ℕ) + 2 * m) + 0) =
        (-((((([0, 2] : List ℕ).drop
            (ziOf ([0, 2] : List ℕ))).get ⟨m, hm⟩ : ℚ)) * 7))
          * (fun _ _ => (3 : ℚ)) 0 0) ∧
      (harmonic_stiffness_mat 1 (fun _ _ => 2) (fun _ _ => 3)
          (fun _ _ => 5) 7 ([0, 2] : List ℕ) false
          (1 * (ziOf ([0, 2] : List ℕ) + 2 * m) + 0)
          (1 * (ziOf ([0, 2] : List ℕ) + 2 * m) + 0) =
        if false then 0
        else (fun _ _ => (5 : ℚ)) 0 0
          + (-((((([0, 2] : List ℕ).drop
              (ziOf ([0, 2] : List ℕ))).get ⟨m, hm⟩ : ℚ) * 7) ^ 2))
            * (fun _ _ => (2 : ℚ)) 0 0) ∧
      (harmonic_stiffness_mat 1 (fun _ _ => 2) (fun _ _ => 3)
          (fun _ _ => 5) 7 ([0, 2] : List ℕ) false
          (1 * (ziOf ([0, 2] : List ℕ) + 2 * m + 1) + 0)
          (1 * (ziOf ([0, 2] : List ℕ) + 2 * m + 1) + 0) =
        if false then 0
        else (fun _ _ => (5 : ℚ)) 0 0
          + (-((((([0, 2] : List ℕ).drop
              (ziOf ([0, 2] : List ℕ))).get ⟨m, hm⟩ : ℚ) * 7) ^ 2))
            * (fun _ _ => (2 : ℚ)) 0 0))) :=
  ⟨by decide, by decide,
    C3_harmonic_stiffness_blocks 1 (fun _ _ => 2) (fun _ _ => 3)
      (fun _ _ => 5) 7 ([0, 2] : List ℕ) false (by decide) 0 0 (by decide)
      (by decide)⟩

/-- C9: the harmonic-count operation `Nhc` fails with a descriptive error
for every harmonic set containing duplicate entries, and
`time_series_deriv` fails with the descriptive aliasing error for every
input with `Nt ≤ 2*max(h)+1` (given a harmonic set satisfying the
zeroth-harmonic-first requirement checked just before); neither input is
silently corrected. -/
theorem C9_input_validation :
    (∀ h : List ℕ, ¬h.Nodup →
      Nhc h = .error "Repeated Harmonics in h are not allowed.") ∧
    (∀ (Nt : ℕ) (h : List ℕ) (X0 : ℕ → ℕ → ℝ) (order : ℕ),
      ((h.filter (fun x => x = 0)).length = 0 ∨ h.head? = some 0) →
      Nt ≤ 2 * maxH h + 1 →
      time_series_deriv Nt h X0 order =
        .error "More times are required to avoid truncating harmonics.") := by
  constructor
  · intro h hdup
    unfold Nhc
    rw [if_neg hdup]
  · intro Nt h X0 order hzf hNt
    unfold time_series_deriv
    rw [if_neg (not_not_intro hzf), if_pos (by omega)]

/-- Witness for C9: `Nhc([1,1])` raises the duplicate-harmonics error;
`time_series_deriv(3, [0,1], X0, 0)` raises the aliasing error since
`3 ≤ 2*1+1`. -/
theorem C9_input_validation_witness :
    Nhc [1, 1] = .error "Repeated Harmonics in h are not allowed." ∧
    time_series_deriv 3 [0, 1] (fun _ _ => 0) 0 =
      .error "More times are required to avoid truncating harmonics." :=
  ⟨C9_input_validation.1 [1, 1] (by decide),
   C9_input_validation.2 3 [0, 1] (fun _ _ => 0) 0 (by decide) (by decide)⟩

/-- Geometric-sum orthogonality for the discrete Fourier kernel:
`sum_{j<N} exp(2*pi*i*c*j/N) = N` when `N ∣ c` and `0` otherwise. -/
theorem expsum (N : ℕ) (hN : 0 < N) (c : ℤ) :
    ∑ j in Finset.range N,
      Complex.exp (2 * (Real.pi : ℂ) * Complex.I * c * j / N) =
    if (N : ℤ) ∣ c then (N : ℂ) else 0 := by
  have hNne : (N : ℂ) ≠ 0 := Nat.cast_ne_zero.mpr hN.ne'
  have h2pine : 2 * (Real.pi : ℂ) * Complex.I ≠ 0 := by
    simp [Complex.ofReal_ne_zero.mpr Real.pi_ne_zero, Complex.I_ne_zero]
  have hterm : ∀ j : ℕ,
      Complex.exp (2 * (Real.pi : ℂ) * Complex.I * c * j / N) =
        Complex.exp (2 * (Real.pi : ℂ) * Complex.I * c / N) ^ j := by
    intro j
    rw [← Complex.exp_nat_mul]
    congr 1
    ring
  simp only [hterm]
  by_cases hdvd : (N : ℤ) ∣ c
  · obtain ⟨t, ht⟩ := hdvd
    have hω : Complex.exp (2 * (Real.pi : ℂ) * Complex.I * c / N) = 1 := by
      have harg : 2 * (Real.pi : ℂ) * Complex.I * c / N =
          t * (2 * (Real.pi : ℂ) * Complex.I) := by
        rw [ht]
        push_cast
        field_simp
        ring
      rw [harg, Complex.exp_int_mul_two_pi_mul_I]
    simp only [hω, one_pow, Finset.sum_const, Finset.card_range,
      nsmul_eq_mul, mul_one]
    rw [if_pos ⟨t, ht⟩]
  · have hω : Complex.exp (2 * (Real.pi : ℂ) * Complex.I * c / N) ≠ 1 := by
      intro hc
      rw [Complex.exp_eq_one_iff] at hc
      obtain ⟨t, ht⟩ := hc
      apply hdvd
      refine ⟨t, ?_⟩
      have h2 : (c : ℂ) = t * N := by
        field_simp at ht
        have := mul_left_cancel₀ h2pine
          (show 2 * (Real.pi : ℂ) * Complex.I * (c : ℂ) =
            2 * (Real.pi : ℂ) * Complex.I * ((t : ℂ) * N) by
              rw [ht]; ring)
        exact this
      have h2' : (c : ℂ) = N * t := by rw [h2]; ring
      exact_mod_cast h2'
    rw [geom_sum_eq hω]
    have hωN : Complex.exp (2 * (Real.pi : ℂ) * Complex.I * c / N) ^ N
        = 1 := by
      rw [← Complex.exp_nat_mul]
      have harg : (N : ℂ) * (2 * (Real.pi : ℂ) * Complex.I * c / N) =
          c * (2 * (Real.pi : ℂ) * Complex.I) := by
        field_simp
        ring
      rw [harg, Complex.exp_int_mul_two_pi_mul_I]
    rw [hωN]
    simp [hdvd]

/-- For indices below `N`, `N` divides `k - n` exactly when `k = n`. -/
theorem dvd_sub_iff_eq (N k n : ℕ) (hN : 0 < N) (hk : k < N) (hn : n < N) :
    (N : ℤ) ∣ ((k : ℤ) - n) ↔ k = n := by
  constructor
  · rintro ⟨t, ht⟩
    have habs : |(N : ℤ) * t| < N := by
      rw [← ht, abs_lt]
      constructor <;> omega
    rw [abs_mul, abs_of_pos (show (0 : ℤ) < N by exact_mod_cast hN)]
      at habs
    have ht1 : |t| < 1 := by
      by_contra hcon
      push_neg at hcon
      nlinarith [abs_nonneg t]
    have ht0 : t = 0 := Int.abs_lt_one_iff.mp ht1
    rw [ht0, mul_zero] at ht
    omega
  · rintro rfl
    simp

/-- For indices below `N`, `N` divides `k + n` exactly when
`k = (N - n) % N`. -/
theorem dvd_add_iff_eq (N k n : ℕ) (hN : 0 < N) (hk : k < N) (hn : n < N) :
    (N : ℤ) ∣ ((k : ℤ) + n) ↔ k = (N - n) % N := by
  have hNz : (0 : ℤ) < N := by exact_mod_cast hN
  constructor
  · rintro ⟨t, ht⟩
    have ht01 : t = 0 ∨ t = 1 := by
      rcases lt_trichotomy t 0 with h | h | h
      · exfalso; nlinarith
      · left; exact h
      · rcases lt_or_ge t 2 with h2t | h2t
        · right; omega
        · exfalso; nlinarith
    rcases ht01 with rfl | rfl
    · rw [mul_zero] at ht
      have hk0 : k = 0 ∧ n = 0 := by constructor <;> omega
      obtain ⟨rfl, rfl⟩ := hk0
      simp
    · rw [mul_one] at ht
      have hkn : k + n = N := by omega
      have hn1 : 1 ≤ n := by omega
      have hmod : (N - n) % N = N - n := Nat.mod_eq_of_lt (by omega)
      omega
  · intro hk0
    rcases Nat.eq_zero_or_pos n with rfl | hn1
    · rw [Nat.sub_zero, Nat.mod_self] at hk0
      subst hk0
      simp
    · have hmod : (N - n) % N = N - n := Nat.mod_eq_of_lt (by omega)
      rw [hmod] at hk0
      subst hk0
      refine ⟨1, ?_⟩
      omega

/-- The forward DFT inverts the inverse DFT: `fft(ifft(X))[n] = X[n]`. -/
theorem fftN_ifftN (N : ℕ) (hN : 0 < N) (X : ℕ → ℂ) (n : ℕ)
    (hn : n < N) : fftN N (ifftN N X) n = X n := by
  have hNne : (N : ℂ) ≠ 0 := Nat.cast_ne_zero.mpr hN.ne'
  unfold fftN ifftN
  have hsummand : ∀ j : ℕ,
      (1 / (N : ℂ) * ∑ k in Finset.range N,
        X k * Complex.exp (2 * (Real.pi : ℂ) * Complex.I * j * k / N)) *
        Complex.exp (-(2 * (Real.pi : ℂ) * Complex.I) * j * n / N)
      = 1 / (N : ℂ) * ∑ k in Finset.range N,
          X k * Complex.exp (2 * (Real.pi : ℂ) * Complex.I *
            (((k : ℤ) - n : ℤ) : ℂ) * j / N) := by
    intro j
    rw [mul_assoc]
    congr 1
    rw [Finset.sum_mul]
    refine Finset.sum_congr rfl ?_
    intro k _
    rw [mul_assoc, ← Complex.exp_add]
    congr 1
    push_cast
    ring
  rw [Finset.sum_congr rfl (fun j _ => hsummand j), ← Finset.mul_sum,
    Finset.sum_comm]
  have hinner : ∀ k ∈ Finset.range N,
      ∑ j in Finset.range N,
        X k * Complex.exp (2 * (Real.pi : ℂ) * Complex.I *
          (((k : ℤ) - n : ℤ) : ℂ) * j / N)
      = if k = n then X k * N else 0 := by
    intro k hk
    rw [← Finset.mul_sum, expsum N hN ((k : ℤ) - n)]
    simp only [dvd_sub_iff_eq N k n hN (Finset.mem_range.mp hk) hn]
    split_ifs
    · rfl
    · exact mul_zero _
  rw [Finset.sum_congr rfl hinner, Finset.sum_ite_eq' (Finset.range N) n
    (fun k => X k * N), if_pos (Finset.mem_range.mpr hn)]
  field_simp

/-- Modulating the inverse DFT by `exp(+2*pi*i*j*n/N)` and summing
recovers the coefficient at the reflected index `(N - n) % N`. -/
theorem ifftN_mod (N : ℕ) (hN : 0 < N) (X : ℕ → ℂ) (n : ℕ)
    (hn : n < N) :
    ∑ j in Finset.range N, ifftN N X j *
        Complex.exp (2 * (Real.pi : ℂ) * Complex.I * j * n / N)
      = X ((N - n) % N) := by
  have hNne : (N : ℂ) ≠ 0 := Nat.cast_ne_zero.mpr hN.ne'
  unfold ifftN
  have hsummand : ∀ j : ℕ,
      (1 / (N : ℂ) * ∑ k in Finset.range N,
        X k * Complex.exp (2 * (Real.pi : ℂ) * Complex.I * j * k / N)) *
        Complex.exp (2 * (Real.pi : ℂ) * Complex.I * j * n / N)
      = 1 / (N : ℂ) * ∑ k in Finset.range N,
          X k * Complex.exp (2 * (Real.pi : ℂ) * Complex.I *
            (((k : ℤ) + n : ℤ) : ℂ) * j / N) := by
    intro j
    rw [mul_assoc]
    congr 1
    rw [Finset.sum_mul]
    refine Finset.sum_congr rfl ?_
    intro k _
    rw [mul_assoc, ← Complex.exp_add]
    congr 1
    push_cast
    ring
  rw [Finset.sum_congr rfl (fun j _ => hsummand j), ← Finset.mul_sum,
    Finset.sum_comm]
  have hinner : ∀ k ∈ Finset.range N,
      ∑ j in Finset.range N,
        X k * Complex.exp (2 * (Real.pi : ℂ) * Complex.I *
          (((k : ℤ) + n : ℤ) : ℂ) * j / N)
      = if k = (N - n) % N then X k * N else 0 := by
    intro k hk
    rw [← Finset.mul_sum, expsum N hN ((k : ℤ) + n)]
    simp only [dvd_add_iff_eq N k n hN (Finset.mem_range.mp hk) hn]
    split_ifs
    · rfl
    · exact mul_zero _
  rw [Finset.sum_congr rfl hinner, Finset.sum_ite_eq' (Finset.range N)
    ((N - n) % N) (fun k => X k * N),
    if_pos (Finset.mem_range.mpr (Nat.mod_lt _ hN))]
  field_simp

/-- The coefficient array assembled by `time_series_deriv` is conjugate
symmetric: `conj(Xf[k]) = Xf[(N-k) % N]` (which is why the inverse DFT of
`Xf` is real and taking `np.real` loses nothing). -/
theorem tsdXf_conj (F : ℕ → ℕ → ℝ) (Nht : ℕ) (d k : ℕ)
    (hk : k < 2 * Nht + 2) :
    (starRingEnd ℂ) (tsdXf F Nht k d) =
      tsdXf F Nht ((2 * Nht + 2 - k) % (2 * Nht + 2)) d := by
  unfold tsdXf
  simp only []
  rcases Nat.eq_zero_or_pos k with rfl | hk1
  · rw [Nat.sub_zero, Nat.mod_self]
    simp only [if_pos rfl]
    simp [map_ofNat, Complex.conj_ofReal]
  · have hmod : (2 * Nht + 2 - k) % (2 * Nht + 2) = 2 * Nht + 2 - k :=
      Nat.mod_eq_of_lt (by omega)
    rw [hmod]
    by_cases hkle : k ≤ Nht
    · rw [if_neg (by omega), if_pos hkle,
        if_neg (by omega : ¬(2 * Nht + 2 - k = 0)),
        if_neg (by omega : ¬(2 * Nht + 2 - k ≤ Nht)),
        if_neg (by omega : ¬(2 * Nht + 2 - k = Nht + 1))]
      have hNN : 2 * Nht + 2 - (2 * Nht + 2 - k) = k := by omega
      rw [hNN]
      simp [map_ofNat, Complex.conj_ofReal, Complex.conj_I]
    · by_cases hkmid : k = Nht + 1
      · subst hkmid
        rw [if_neg (by omega), if_neg hkle, if_pos rfl,
          if_neg (by omega : ¬(2 * Nht + 2 - (Nht + 1) = 0)),
          if_neg (by omega : ¬(2 * Nht + 2 - (Nht + 1) ≤ Nht)),
          if_pos (by omega : 2 * Nht + 2 - (Nht + 1) = Nht + 1)]
        simp
      · rw [if_neg (by omega), if_neg hkle, if_neg hkmid,
          if_neg (by omega : ¬(2 * Nht + 2 - k = 0)),
          if_pos (by omega : 2 * Nht + 2 - k ≤ Nht)]
        simp [map_ofNat, Complex.conj_ofReal, Complex.conj_I]
        exact Or.inl (by ring)

/-- Reflecting an index below `N` twice gives it back. -/
theorem mod_reflect (N n : ℕ) (_hN : 0 < N) (hn : n < N) :
    (N - (N - n) % N) % N = n := by
  rcases Nat.eq_zero_or_pos n with rfl | hn1
  · rw [Nat.sub_zero, Nat.mod_self, Nat.sub_zero, Nat.mod_self]
  · rw [Nat.mod_eq_of_lt (by omega : N - n < N),
      (by omega : N - (N - n) = n)]
    exact Nat.mod_eq_of_lt hn

/-- The forward DFT of the real part of the inverse DFT of the
conjugate-symmetric array `Xf` recovers `Xf` itself: taking `np.real` in
`time_series_deriv` loses no information, and `np.fft.fft` of the time
series returns the assembled coefficients exactly. -/
theorem fft_tsd (F : ℕ → ℕ → ℝ) (Nht d n : ℕ) (hn : n < 2 * Nht + 2) :
    fftN (2 * Nht + 2)
      (fun j => ((ifftN (2 * Nht + 2) (fun k => tsdXf F Nht k d) j).re : ℂ))
      n = tsdXf F Nht n d := by
  have hN : 0 < 2 * Nht + 2 := by omega
  have hre : ∀ j : ℕ,
      (((ifftN (2 * Nht + 2) (fun k => tsdXf F Nht k d) j).re : ℝ) : ℂ)
        = (ifftN (2 * Nht + 2) (fun k => tsdXf F Nht k d) j
          + (starRingEnd ℂ)
            (ifftN (2 * Nht + 2) (fun k => tsdXf F Nht k d) j)) / 2 := by
    intro j
    rw [Complex.add_conj]
    push_cast
    ring
  unfold fftN
  simp only [hre]
  have hsplit : ∑ j in Finset.range (2 * Nht + 2),
      (ifftN (2 * Nht + 2) (fun k => tsdXf F Nht k d) j
        + (starRingEnd ℂ)
          (ifftN (2 * Nht + 2) (fun k => tsdXf F Nht k d) j)) / 2 *
        Complex.exp (-(2 * (Real.pi : ℂ) * Complex.I) * j * n
          / (2 * Nht + 2 : ℕ))
    = ((∑ j in Finset.range (2 * Nht + 2),
        ifftN (2 * Nht + 2) (fun k => tsdXf F Nht k d) j *
          Complex.exp (-(2 * (Real.pi : ℂ) * Complex.I) * j * n
            / (2 * Nht + 2 : ℕ)))
      + ∑ j in Finset.range (2 * Nht + 2),
        (starRingEnd ℂ)
            (ifftN (2 * Nht + 2) (fun k => tsdXf F Nht k d) j) *
          Complex.exp (-(2 * (Real.pi : ℂ) * Complex.I) * j * n
            / (2 * Nht + 2 : ℕ))) / 2 := by
    symm
    rw [← Finset.sum_add_distrib, Finset.sum_div]
    refine Finset.sum_congr rfl ?_
    intro j _
    ring
  rw [hsplit]
  have h1 := fftN_ifftN (2 * Nht + 2) hN (fun k => tsdXf F Nht k d) n hn
  unfold fftN at h1
  rw [h1]
  have h2 : ∑ j in Finset.range (2 * Nht + 2),
      (starRingEnd ℂ)
          (ifftN (2 * Nht + 2) (fun k => tsdXf F Nht k d) j) *
        Complex.exp (-(2 * (Real.pi : ℂ) * Complex.I) * j * n
          / (2 * Nht + 2 : ℕ))
    = (starRingEnd ℂ) (∑ j in Finset.range (2 * Nht + 2),
        ifftN (2 * Nht + 2) (fun k => tsdXf F Nht k d) j *
          Complex.exp (2 * (Real.pi : ℂ) * Complex.I * j * n
            / (2 * Nht + 2 : ℕ))) := by
    rw [map_sum]
    refine Finset.sum_congr rfl ?_
    intro j _
    rw [map_mul]
    congr 1
    rw [← Complex.exp_conj]
    congr 1
    simp only [map_div₀, map_mul, map_neg, map_ofNat, Complex.conj_I,
      Complex.conj_ofReal, Complex.conj_natCast]
    ring
  rw [h2, ifftN_mod (2 * Nht + 2) hN (fun k => tsdXf F Nht k d) n hn]
  rw [tsdXf_conj F Nht d ((2 * Nht + 2 - n) % (2 * Nht + 2))
    (Nat.mod_lt _ hN)]
  rw [mod_reflect (2 * Nht + 2) n hN hn]
  ring

/-- With derivative order 0 the rotation matrix is not applied. -/
theorem x0fullD_zero (h : List ℕ) (X0 : ℕ → ℕ → ℝ) :
    x0fullD h X0 0 = x0full h X0 := by
  unfold x0fullD
  simp

/-- `findPos` recovers the position of a list entry (positions are unique
for duplicate-free lists). -/
theorem findPos_get (h : List ℕ) (hnd : h.Nodup) :
    ∀ (p m : ℕ), h.get? p = some m → findPos h m = some p := by
  induction h with
  | nil => intro p m hget; simp at hget
  | cons a t ih =>
    intro p m hget
    rw [List.nodup_cons] at hnd
    match p with
    | 0 =>
      simp only [List.get?] at hget
      injection hget with hget
      subst hget
      unfold findPos
      rw [if_pos rfl]
    | p + 1 =>
      simp only [List.get?] at hget
      have hmem : m ∈ t := List.get?_mem hget
      have hne : ¬(a = m) := fun hcon => hnd.1 (hcon ▸ hmem)
      unfold findPos
      rw [if_neg hne, ih hnd.2 p m hget]
      rfl

/-- Every entry of `h` is at most `maxH h`. -/
theorem le_maxH (h : List ℕ) : ∀ m ∈ h, m ≤ maxH h := by
  induction h with
  | nil => intro m hm; simp at hm
  | cons a t ih =>
    intro m hm
    rcases List.mem_cons.mp hm with rfl | hm
    · exact le_max_left _ _
    · exact le_trans (ih m hm) (le_max_right _ _)

/-- For a valid harmonic list (duplicate-free, zeroth harmonic first if
present), the component count is `2*(len - zi) + zi`. -/
theorem nhcCount_eq (h : List ℕ) (hnd : h.Nodup)
    (hzf : (h.filter (fun x => x = 0)).length = 0 ∨ h.head? = some 0) :
    NhcCount h = 2 * (h.length - ziOf h) + ziOf h := by
  unfold NhcCount ziOf
  by_cases hh0 : h.head? = some 0
  · rw [if_pos hh0]
    match h with
    | [] => simp at hh0
    | a :: t =>
      simp only [List.head?] at hh0
      injection hh0 with hh0
      subst hh0
      rw [List.nodup_cons] at hnd
      have hftz : t.filter (fun x => x = 0) = [] := by
        rw [List.filter_eq_nil_iff]
        intro m hm
        simp only [decide_eq_true_eq]
        intro hcon
        exact hnd.1 (hcon ▸ hm)
      have hftnz : t.filter (fun x => x ≠ 0) = t := by
        rw [List.filter_eq_self]
        intro m hm
        simp only [ne_eq, decide_not, Bool.not_eq_true']
        rw [decide_eq_false_iff_not]
        intro hcon
        exact hnd.1 (hcon ▸ hm)
      simp [hftz, hftnz]
      intro m hm hcon
      exact hnd.1 (hcon ▸ hm)
  · rw [if_neg hh0]
    rcases hzf with hzf | hzf
    · have hnomem : ∀ m ∈ h, m ≠ 0 := by
        intro m hm hcon
        have : (0 : ℕ) ∈ h.filter (fun x => x = 0) :=
          List.mem_filter.mpr ⟨hcon ▸ hm, by simp⟩
        rw [List.length_eq_zero] at hzf
        rw [hzf] at this
        simp at this
      have hfz : h.filter (fun x => x = 0) = [] := by
        rw [List.filter_eq_nil_iff]
        intro m hm
        simp only [decide_eq_true_eq]
        exact hnomem m hm
      have hfnz : h.filter (fun x => x ≠ 0) = h := by
        rw [List.filter_eq_self]
        intro m hm
        simp only [ne_eq, decide_not, Bool.not_eq_true']
        rw [decide_eq_false_iff_not]
        exact hnomem m hm
      simp [hfz, hfnz]
      exact fun m hm => hnomem m hm
    · exact absurd hzf hh0

/-- The scatter rows of `X0full`: for the `i`-th harmonic `m` after the
zeroth (position `zi + i` of `h`), row `2m-1` holds the cosine row
`2i + zi` of `X0` and row `2m` the sine row `2i + zi + 1`. -/
theorem x0full_rows (h : List ℕ) (X0 : ℕ → ℕ → ℝ) (hnd : h.Nodup)
    (i m : ℕ) (hi : i < (h.drop (ziOf h)).length)
    (hm : (h.drop (ziOf h)).get ⟨i, hi⟩ = m) (hm1 : 1 ≤ m) (d : ℕ) :
    x0full h X0 (2 * m - 1) d = X0 (2 * i + ziOf h) d ∧
    x0full h X0 (2 * m) d = X0 (2 * i + ziOf h + 1) d := by
  have hget : h.get? (ziOf h + i) = some m := by
    rw [← List.get?_drop, List.get?_eq_get hi, hm]
  have hfp : findPos h m = some (ziOf h + i) := findPos_get h hnd _ m hget
  have hzi : ziOf h ≤ 1 := by unfold ziOf; split_ifs <;> omega
  constructor
  · simp only [x0full]
    rw [if_neg (by omega : ¬(2 * m - 1 = 0)),
      (by omega : (2 * m - 1 + 1) / 2 = m), hfp]
    simp only []
    rw [if_pos (Nat.le_add_right _ _),
      if_pos (by omega : (2 * m - 1) % 2 = 1),
      (by omega : 2 * (ziOf h + i) - ziOf h = 2 * i + ziOf h)]
  · simp only [x0full]
    rw [if_neg (by omega : ¬(2 * m = 0)),
      (by omega : (2 * m + 1) / 2 = m), hfp]
    simp only []
    rw [if_pos (Nat.le_add_right _ _),
      if_neg (by omega : ¬((2 * m) % 2 = 1)),
      (by omega : 2 * (ziOf h + i) - ziOf h + 1 = 2 * i + ziOf h + 1)]

/-- The zero-frequency bin of the assembled coefficients. -/
theorem tsdXf_zero_re (F : ℕ → ℕ → ℝ) (Nht d : ℕ) :
    (tsdXf F Nht 0 d).re = (2 * Nht + 2 : ℝ) * F 0 d := by
  have h0 : tsdXf F Nht 0 d =
      ((2 * Nht + 2 : ℕ) : ℂ) / 2 * (2 * (F 0 d : ℂ)) := by
    unfold tsdXf
    simp
  have hval : ((2 * Nht + 2 : ℕ) : ℂ) / 2 * (2 * (F 0 d : ℂ)) =
      (((2 * Nht + 2 : ℝ) * F 0 d : ℝ) : ℂ) := by
    push_cast
    ring
  rw [h0, hval, Complex.ofReal_re]

/-- The positive-frequency bins `1 ≤ m ≤ Nht` of the assembled
coefficients: real part `(N/2)*F[2m-1]`, imaginary part `-(N/2)*F[2m]`. -/
theorem tsdXf_bin (F : ℕ → ℕ → ℝ) (Nht d m : ℕ) (hm1 : 1 ≤ m)
    (hmle : m ≤ Nht) :
    (tsdXf F Nht m d).re = ((2 * Nht + 2 : ℝ) / 2) * F (2 * m - 1) d ∧
    (tsdXf F Nht m d).im = -(((2 * Nht + 2 : ℝ) / 2) * F (2 * m) d) := by
  unfold tsdXf
  simp only []
  rw [if_neg (by omega : ¬(m = 0)), if_pos hmle]
  have hval : ((2 * Nht + 2 : ℕ) : ℂ) / 2 *
      ((F (2 * m - 1) d : ℂ) - Complex.I * (F (2 * m) d : ℂ)) =
      ((((2 * Nht + 2 : ℝ) / 2) * F (2 * m - 1) d : ℝ) : ℂ)
        + (((2 * Nht + 2 : ℝ) / 2) * F (2 * m) d : ℝ) *
          (-Complex.I) := by
    push_cast
    ring
  rw [hval]
  constructor
  · simp [Complex.add_re, Complex.mul_re, Complex.ofReal_re,
      Complex.ofReal_im]
  · simp [Complex.add_im, Complex.mul_im, Complex.ofReal_re,
      Complex.ofReal_im]

/-- Every harmonic after position `zi` of a valid harmonic list is
nonzero. -/
theorem valid_mem_pos (h : List ℕ) (hnd : h.Nodup)
    (hzf : (h.filter (fun x => x = 0)).length = 0 ∨ h.head? = some 0)
    (m : ℕ) (hmem : m ∈ h.drop (ziOf h)) : 1 ≤ m := by
  by_cases hh0 : h.head? = some 0
  · have hzi : ziOf h = 1 := by unfold ziOf; rw [if_pos hh0]
    match h with
    | [] => simp at hh0
    | a :: t =>
      simp only [List.head?] at hh0
      injection hh0 with hh0
      subst hh0
      rw [List.nodup_cons] at hnd
      rw [hzi] at hmem
      simp only [List.drop] at hmem
      rcases Nat.eq_zero_or_pos m with rfl | hm
      · exact absurd hmem hnd.1
      · exact hm
  · have hzi : ziOf h = 0 := by unfold ziOf; rw [if_neg hh0]
    rw [hzi, List.drop_zero] at hmem
    rcases hzf with hzf | hzf
    · rcases Nat.eq_zero_or_pos m with rfl | hm
      · exfalso
        have : (0 : ℕ) ∈ h.filter (fun x => x = 0) :=
          List.mem_filter.mpr ⟨hmem, by simp⟩
        rw [List.length_eq_zero] at hzf
        rw [hzf] at this
        simp at this
      · exact hm
    · exact absurd hzf hh0

/-- C2: for every valid (duplicate-free, zeroth-first) harmonic set `h`
and every `Nt` with `Nt > 2*max(h)+1`, applying `get_fourier_coeff` to the
output of `time_series_deriv` with derivative order 0 returns the original
harmonic coefficient matrix — with exact real arithmetic, the round trip
is the identity (so within any floating-point tolerance such as 1e-12). -/
theorem C2_fourier_roundtrip (Nt : ℕ) (h : List ℕ) (X0 : ℕ → ℕ → ℝ)
    (hnodup : h.Nodup)
    (hzf : (h.filter (fun x => x = 0)).length = 0 ∨ h.head? = some 0)
    (hNt : 2 * maxH h + 1 < Nt)
    (r d : ℕ) (hrow : r < NhcCount h) :
    ∃ xt v, time_series_deriv Nt h X0 0 = .ok xt ∧
      get_fourier_coeff h (2 * (Nt / 2 - 1) + 2) xt = .ok v ∧
      v r d = X0 r d := by
  have hok1 : time_series_deriv Nt h X0 0 =
      .ok (fun j d' => tsdVal Nt h X0 0 j d') := by
    unfold time_series_deriv
    rw [if_neg (not_not_intro hzf), if_neg (not_not_intro hNt)]
  have hok2 : get_fourier_coeff h (2 * (Nt / 2 - 1) + 2)
      (fun j d' => tsdVal Nt h X0 0 j d') =
    .ok (fun r' d' =>
      if r' = 0 ∧ ziOf h = 1 then
        (fftN (2 * (Nt / 2 - 1) + 2)
          (fun j => ((tsdVal Nt h X0 0 j d' : ℝ) : ℂ)) 0).re
          / ((2 * (Nt / 2 - 1) + 2 : ℕ) : ℝ)
      else
        match (h.drop (ziOf h)).get? ((r' - ziOf h) / 2) with
        | some hi =>
          if (r' - ziOf h) % 2 = 0 then
            (fftN (2 * (Nt / 2 - 1) + 2)
              (fun j => ((tsdVal Nt h X0 0 j d' : ℝ) : ℂ)) hi).re
              / (((2 * (Nt / 2 - 1) + 2 : ℕ) : ℝ) / 2)
          else
            -(fftN (2 * (Nt / 2 - 1) + 2)
              (fun j => ((tsdVal Nt h X0 0 j d' : ℝ) : ℂ)) hi).im
              / (((2 * (Nt / 2 - 1) + 2 : ℕ) : ℝ) / 2)
        | none => 0) := by
    unfold get_fourier_coeff
    rw [if_neg (not_not_intro hzf)]
  refine ⟨_, _, hok1, hok2, ?_⟩
  have hNh : maxH h ≤ Nt / 2 - 1 := by omega
  have hfft : ∀ n, n < 2 * (Nt / 2 - 1) + 2 →
      fftN (2 * (Nt / 2 - 1) + 2)
        (fun j => ((tsdVal Nt h X0 0 j d : ℝ) : ℂ)) n
      = tsdXf (x0full h X0) (Nt / 2 - 1) n d := by
    intro n hn
    have hkey := fft_tsd (x0fullD h X0 0) (Nt / 2 - 1) d n hn
    rw [x0fullD_zero] at hkey
    exact hkey
  by_cases hbr : r = 0 ∧ ziOf h = 1
  · obtain ⟨rfl, hzi1⟩ := hbr
    rw [if_pos ⟨rfl, hzi1⟩, hfft 0 (by omega), tsdXf_zero_re]
    have hzf0 : h.head? = some 0 := by
      unfold ziOf at hzi1
      by_contra hcon
      rw [if_neg hcon] at hzi1
      simp at hzi1
    have hF0 : x0full h X0 0 d = X0 0 d := by
      simp [x0full, hzf0]
    rw [hF0]
    have hpos : (0 : ℝ) < 2 * ((Nt / 2 - 1 : ℕ) : ℝ) + 2 := by positivity
    push_cast
    field_simp
  · rw [if_neg hbr]
    have hcount := nhcCount_eq h hnodup hzf
    rw [hcount] at hrow
    have hzile : ziOf h ≤ 1 := by unfold ziOf; split_ifs <;> omega
    have hrge : ziOf h ≤ r := by
      by_cases hz1 : ziOf h = 1
      · have hr0 : r ≠ 0 := fun hc => hbr ⟨hc, hz1⟩
        omega
      · omega
    have hi : (r - ziOf h) / 2 < (h.drop (ziOf h)).length := by
      rw [List.length_drop]
      omega
    have hget : (h.drop (ziOf h)).get? ((r - ziOf h) / 2) =
        some ((h.drop (ziOf h)).get ⟨(r - ziOf h) / 2, hi⟩) :=
      List.get?_eq_get hi
    have hmem : (h.drop (ziOf h)).get ⟨(r - ziOf h) / 2, hi⟩ ∈
        h.drop (ziOf h) := List.get_mem _ _ _
    have hm1 : 1 ≤ (h.drop (ziOf h)).get ⟨(r - ziOf h) / 2, hi⟩ :=
      valid_mem_pos h hnodup hzf _ hmem
    have hmle : (h.drop (ziOf h)).get ⟨(r - ziOf h) / 2, hi⟩ ≤ maxH h :=
      le_maxH h _ (List.mem_of_mem_drop hmem)
    have hmNht : (h.drop (ziOf h)).get ⟨(r - ziOf h) / 2, hi⟩ ≤
        Nt / 2 - 1 := le_trans hmle hNh
    have hrows := x0full_rows h X0 hnodup ((r - ziOf h) / 2) _ hi rfl
      hm1 d
    have hpos : (0 : ℝ) < 2 * ((Nt / 2 - 1 : ℕ) : ℝ) + 2 := by positivity
    rw [hget]
    show (if (r - ziOf h) % 2 = 0 then
        (fftN (2 * (Nt / 2 - 1) + 2)
          (fun j => ((tsdVal Nt h X0 0 j d : ℝ) : ℂ))
          ((h.drop (ziOf h)).get ⟨(r - ziOf h) / 2, hi⟩)).re
          / (((2 * (Nt / 2 - 1) + 2 : ℕ) : ℝ) / 2)
      else
        -(fftN (2 * (Nt / 2 - 1) + 2)
          (fun j => ((tsdVal Nt h X0 0 j d : ℝ) : ℂ))
          ((h.drop (ziOf h)).get ⟨(r - ziOf h) / 2, hi⟩)).im
          / (((2 * (Nt / 2 - 1) + 2 : ℕ) : ℝ) / 2)) = X0 r d
    by_cases hpar : (r - ziOf h) % 2 = 0
    · rw [if_pos hpar, hfft _ (by omega),
        (tsdXf_bin (x0full h X0) (Nt / 2 - 1) d _ hm1 hmNht).1,
        hrows.1, (by omega : 2 * ((r - ziOf h) / 2) + ziOf h = r)]
      push_cast
      field_simp
    · rw [if_neg hpar, hfft _ (by omega),
        (tsdXf_bin (x0full h X0) (Nt / 2 - 1) d _ hm1 hmNht).2,
        hrows.2, (by omega : 2 * ((r - ziOf h) / 2) + ziOf h + 1 = r)]
      push_cast
      field_simp

/-- Witness for C2 at `h = [0, 1]`, `Nt = 4`, `X0 i j = i + j`. -/
theorem C2_fourier_roundtrip_witness :
    List.Nodup ([0, 1] : List ℕ) ∧
    ((([0, 1] : List ℕ).filter (fun x => x = 0)).length = 0 ∨
      ([0, 1] : List ℕ).head? = some 0) ∧
    2 * maxH ([0, 1] : List ℕ) + 1 < 4 ∧
    1 < NhcCount ([0, 1] : List ℕ) ∧
    (∃ xt v, time_series_deriv 4 ([0, 1] : List ℕ)
        (fun i j => (i : ℝ) + j) 0 = .ok xt ∧
      get_fourier_coeff ([0, 1] : List ℕ) (2 * (4 / 2 - 1) + 2) xt =
        .ok v ∧
      v 1 0 = (fun (i j : ℕ) => (i : ℝ) + j) 1 0) :=
  ⟨by decide, by decide, by decide, by decide, by
    exact C2_fourier_roundtrip 4 [0, 1] (fun i j => (i : ℝ) + j)
      (by decide) (by decide) (by decide) 1 0 (by decide)⟩

/-- C4: for both force elements and any inputs `(U, w, h, Nt)`, a call to
`aft` leaves the element's stored history state (slider position / `unmax`
/ `Fm_prev` / `fxy0` / `uxyn0`) unchanged, and two successive calls with
identical inputs and no intervening history commit return identical
outputs — for every (deterministic) autodiff kernel and every asperity
force law. -/
theorem C4_aft_idempotent :
    (∀ (jf : JenkinsForce)
      (gradK : (ℕ → ℝ) → ℝ → ℝ → ℝ → ℝ → List ℕ → ℕ → (ℕ → ℕ → ℝ))
      (U : ℕ → ℝ) (w : ℝ) (h : List ℕ) (Nt : ℕ),
      (JenkinsForce.aft jf gradK U w h Nt).2 = jf ∧
      (JenkinsForce.aft (JenkinsForce.aft jf gradK U w h Nt).2
          gradK U w h Nt).1
        = (JenkinsForce.aft jf gradK U w h Nt).1) ∧
    (∀ (rc : RoughContactFriction) (ak : AsperityKernels)
      (gradK : RoughContactFriction → (ℕ → ℕ → ℝ) → ℝ → List ℕ → ℕ →
        (ℕ → ℕ → ℝ))
      (U : ℕ → ℝ) (w : ℝ) (h : List ℕ) (Nt : ℕ),
      (RoughContactFriction.aft rc ak gradK U w h Nt).2 = rc ∧
      (RoughContactFriction.aft
          (RoughContactFriction.aft rc ak gradK U w h Nt).2
          ak gradK U w h Nt).1
        = (RoughContactFriction.aft rc ak gradK U w h Nt).1) :=
  ⟨fun _ _ _ _ _ _ => ⟨rfl, rfl⟩, fun _ _ _ _ _ _ _ => ⟨rfl, rfl⟩⟩
